import Mathlib

/-!
Shallow embedding of the `builderio-textcontent-utils` library
(`src/utils/textCleaner.ts`, `src/utils/extractBuilderContent.ts`,
`src/utils/searchBuilderContent.ts`, `src/utils/fetchBuilderTextContent.ts`).

JavaScript strings are modeled as `List Char` (UTF-16 fine structure such as
lone surrogates is not modeled; `String.prototype.toLowerCase` is modeled on
the ASCII range).  JavaScript numbers are modeled as `ℚ` (IEEE-754 rounding is
not modeled; every arithmetic fact proved here is about the exact expressions
the code computes).  Regular-expression replacement loops are translated into
recursive functions on character lists that follow the semantics of the
concrete regex literals in the source.
-/

namespace BuilderUtils

/-- JavaScript `\s` (WhiteSpace ∪ LineTerminator) character class, as used by
`/\s+/` and `String.prototype.trim`. -/
def isJsWs (c : Char) : Bool :=
  c = ' ' || c = '\t' || c = '\n' || c = '\r' || c = '\u000B' || c = '\u000C' ||
  c = '\u00A0' || c = '\u1680' || ('\u2000' ≤ c && c ≤ '\u200A') ||
  c = '\u2028' || c = '\u2029' || c = '\u202F' || c = '\u205F' || c = '\u3000' ||
  c = '\uFEFF'

/-- JavaScript line terminators: the characters not matched by `.` in a regex. -/
def isLineTerm (c : Char) : Bool :=
  c = '\n' || c = '\r' || c = '\u2028' || c = '\u2029'

/-- JavaScript `\w` (regex word character): `[A-Za-z0-9_]`. -/
def isWordChar (c : Char) : Bool :=
  ('a' ≤ c && c ≤ 'z') || ('A' ≤ c && c ≤ 'Z') || ('0' ≤ c && c ≤ '9') || c = '_'

/-- Decimal digit, JS regex `[0-9]`. -/
def isDigitCh (c : Char) : Bool := '0' ≤ c && c ≤ '9'

/-- Hex digit, JS regex `[0-9a-fA-F]`. -/
def isHexCh (c : Char) : Bool :=
  ('0' ≤ c && c ≤ '9') || ('a' ≤ c && c ≤ 'f') || ('A' ≤ c && c ≤ 'F')

/-- Alphanumeric, JS regex `[a-zA-Z0-9]`. -/
def isAlnumCh (c : Char) : Bool :=
  ('0' ≤ c && c ≤ '9') || ('a' ≤ c && c ≤ 'z') || ('A' ≤ c && c ≤ 'Z')

/-- ASCII model of `String.prototype.toLowerCase` (the source only ever
lower-cases search terms and page text; the full Unicode mapping is not
modeled). -/
def asciiLower (c : Char) : Char :=
  if 'A' ≤ c && c ≤ 'Z' then Char.ofNat (c.toNat + 32) else c

/-- Lower-casing a whole string, `s.toLowerCase()`. -/
def jsToLower (l : List Char) : List Char := l.map asciiLower

/-- Drop leading JS whitespace. -/
def trimLeftWs (l : List Char) : List Char := l.dropWhile isJsWs

/-- Drop trailing JS whitespace. -/
def trimRightWs : List Char → List Char
  | [] => []
  | c :: rest =>
    match trimRightWs rest with
    | [] => if isJsWs c then [] else [c]
    | r => c :: r

/-- JavaScript `String.prototype.trim`. -/
def jsTrim (l : List Char) : List Char := trimRightWs (trimLeftWs l)

mutual

/-- `text.replace(/\s+/g, " ")`: collapse every maximal run of JS whitespace
to a single space.  Entry state: not currently inside a whitespace run. -/
def collapseWs : List Char → List Char
  | [] => []
  | c :: rest => if isJsWs c then ' ' :: collapseWsRun rest else c :: collapseWs rest

/-- State of `collapseWs` inside a whitespace run whose single space has
already been emitted. -/
def collapseWsRun : List Char → List Char
  | [] => []
  | c :: rest => if isJsWs c then collapseWsRun rest else c :: collapseWs rest

end

/-- No two adjacent characters are both JS whitespace. -/
def noDoubleWs : List Char → Bool
  | a :: b :: rest => (!(isJsWs a && isJsWs b)) && noDoubleWs (b :: rest)
  | _ => true

/-- The first character, if any, is not JS whitespace. -/
def headNotWs : List Char → Bool
  | [] => true
  | c :: _ => !isJsWs c

/-- The last character, if any, is not JS whitespace. -/
def lastNotWs : List Char → Bool
  | [] => true
  | [c] => !isJsWs c
  | _ :: c :: rest => lastNotWs (c :: rest)

/-- Whitespace-normal form: no run of two or more whitespace characters and no
leading or trailing whitespace. -/
def wsNormal (l : List Char) : Bool := noDoubleWs l && headNotWs l && lastNotWs l

/-- The whitespace-normalization tail of every `cleanText` variant:
`.replace(/\s+/g, " ").trim()`. -/
def normalizeWs (l : List Char) : List Char := jsTrim (collapseWs l)

/-! ### HTML-tag removal: `.replace(/<[^>]*>/g, "")` -/

/-- Does the list contain a `>`? -/
def hasGt : List Char → Bool
  | [] => false
  | c :: rest => c == '>' || hasGt rest

/-- Does the list contain a substring matching `<[^>]*>` — equivalently (see
`hasTag_iff`) a `<` with some `>` after it? -/
def hasTag : List Char → Bool
  | [] => false
  | c :: rest => (c == '<' && hasGt rest) || hasTag rest

mutual

/-- `.replace(/<[^>]*>/g, "")` as a two-state scan: outside a candidate tag,
`<` opens one; inside, everything through the first `>` is dropped.  When the
input ends inside a candidate with no closing `>`, the regex never matched
anywhere in that region (no `>` follows any of its `<`s), so the buffered
characters are emitted verbatim. -/
def stripTags : List Char → List Char
  | [] => []
  | c :: rest => if c = '<' then stripTagsIn [c] rest else c :: stripTags rest

/-- Inside a candidate tag; `buf` holds the consumed characters in reverse
(none of them is `>`). -/
def stripTagsIn (buf : List Char) : List Char → List Char
  | [] => buf.reverse
  | c :: rest => if c = '>' then stripTags rest else stripTagsIn (c :: buf) rest

end

/-! ### HTML entity decoding (`textCleaner.ts` `decodeHtmlEntities`)

`text.replace(/&(?:#([0-9]+)|#x([0-9a-fA-F]+)|([a-zA-Z0-9]+));/g, ...)` in a
single pass: decimal entities, hex entities (lowercase `x` only — the regex
has no `i` flag), then named entities looked up in `namedEntities`
(unrecognized names are kept as-is).  The scan is translated as a state
machine; on a failed candidate the buffered characters contain no `&`, so the
rescan from the position after the `&` is the verbatim emission below. -/

/-- The `namedEntities` table of `textCleaner.ts`. -/
def namedEntities : List (List Char × Char) :=
  [(['a','m','p'], '&'), (['l','t'], '<'), (['g','t'], '>'),
   (['q','u','o','t'], '"'), (['a','p','o','s'], '\''), (['n','b','s','p'], ' '),
   (['c','o','p','y'], '©'), (['r','e','g'], '®'),
   (['t','r','a','d','e'], '™')]

/-- Numeric value of a decimal digit string. -/
def decToNat (ds : List Char) : Nat :=
  ds.foldl (fun a c => a * 10 + (c.toNat - '0'.toNat)) 0

/-- Numeric value of one hex digit. -/
def hexVal (c : Char) : Nat :=
  if isDigitCh c then c.toNat - '0'.toNat
  else if 'a' ≤ c && c ≤ 'f' then c.toNat - 'a'.toNat + 10
  else c.toNat - 'A'.toNat + 10

/-- Numeric value of a hex digit string. -/
def hexToNat (ds : List Char) : Nat := ds.foldl (fun a c => a * 16 + hexVal c) 0

/-- `String.fromCharCode(n)`: the code unit `n mod 2^16`.  (JS lone
surrogates and the float coercion of huge digit strings are not modeled;
`Char.ofNat` maps invalid scalar values to `\0`.) -/
def jsFromCharCode (n : Nat) : Char := Char.ofNat (n % 65536)

namespace TextCleaner

mutual

/-- Scanning state of `decodeHtmlEntities`. -/
def decodeHtmlEntities : List Char → List Char
  | [] => []
  | c :: rest =>
    if c = '&' then decodeAmp rest else c :: decodeHtmlEntities rest

/-- Just after a `&`. -/
def decodeAmp : List Char → List Char
  | [] => ['&']
  | c :: rest =>
    if c = '#' then decodeHash rest
    else if isAlnumCh c then decodeName [c] rest
    else '&' :: (if c = '&' then decodeAmp rest else c :: decodeHtmlEntities rest)

/-- Just after `&#`. -/
def decodeHash : List Char → List Char
  | [] => ['&', '#']
  | c :: rest =>
    if c = 'x' then decodeHex [] rest
    else if isDigitCh c then decodeDec [c] rest
    else '&' :: '#' :: (if c = '&' then decodeAmp rest else c :: decodeHtmlEntities rest)

/-- Collecting `[0-9]+` after `&#`; `ds` is reversed. -/
def decodeDec (ds : List Char) : List Char → List Char
  | [] => '&' :: '#' :: ds.reverse
  | c :: rest =>
    if isDigitCh c then decodeDec (c :: ds) rest
    else if c = ';' then jsFromCharCode (decToNat ds.reverse) :: decodeHtmlEntities rest
    else '&' :: '#' :: ds.reverse ++
      (if c = '&' then decodeAmp rest else c :: decodeHtmlEntities rest)

/-- Collecting `[0-9a-fA-F]+` after `&#x`; `ds` is reversed. -/
def decodeHex (ds : List Char) : List Char → List Char
  | [] => '&' :: '#' :: 'x' :: ds.reverse
  | c :: rest =>
    if isHexCh c then decodeHex (c :: ds) rest
    else if c = ';' ∧ ds ≠ [] then
      jsFromCharCode (hexToNat ds.reverse) :: decodeHtmlEntities rest
    else '&' :: '#' :: 'x' :: ds.reverse ++
      (if c = '&' then decodeAmp rest else c :: decodeHtmlEntities rest)

/-- Collecting `[a-zA-Z0-9]+` after `&`; `nm` is reversed.  On `;`, a name in
the table is decoded; an unknown entity is kept as-is (the source returns the
match unchanged) and the scan continues after it. -/
def decodeName (nm : List Char) : List Char → List Char
  | [] => '&' :: nm.reverse
  | c :: rest =>
    if isAlnumCh c then decodeName (c :: nm) rest
    else if c = ';' then
      match namedEntities.lookup nm.reverse with
      | some d => d :: decodeHtmlEntities rest
      | none => '&' :: nm.reverse ++ ';' :: decodeHtmlEntities rest
    else '&' :: nm.reverse ++
      (if c = '&' then decodeAmp rest else c :: decodeHtmlEntities rest)

end

end TextCleaner

/-! ### Markdown delimiter removal

`sd1 d` is `.replace(/d(.+?)d/g, '$1')` for a one-character delimiter `d`
(the source's `\*(.+?)\*`, `\_(.+?)\_`, `` \`(.+?)\` ``), `sd2 d` is
`.replace(/dd(.+?)dd/g, '$1')` (the source's `\_\_(.+?)\_\_` and
`\~\~(.+?)\~\~`), and `sd2E d` is `.replace(/dd(.*?)dd/g, '$1')` (the
source's `\*\*(.*?)\*\*`, whose capture may be empty).  `.` does not match a
line terminator and the captures are lazy: the closer is the first delimiter
after the minimum capture length with no line terminator in between.  When an
attempt fails (line terminator or end of input before a closer), no later
attempt inside the buffered region can succeed either — the failed region
contains no further closer before the same line terminator or end — so the
region is emitted verbatim and the scan resumes at the current character,
exactly as the JS engine's advance-by-one rescan does. -/

mutual

/-- Scanning state of `.replace(/d(.+?)d/g, '$1')`. -/
def sd1 (d : Char) : List Char → List Char
  | [] => []
  | c :: rest => if c = d then sd1Cap d [] rest else c :: sd1 d rest

/-- Collecting the lazy capture after an opening `d`; `buf` is reversed.  A
`d` after at least one captured character closes the match. -/
def sd1Cap (d : Char) (buf : List Char) : List Char → List Char
  | [] => d :: buf.reverse
  | c :: rest =>
    if c = d ∧ buf ≠ [] then buf.reverse ++ sd1 d rest
    else if isLineTerm c then d :: buf.reverse ++ c :: sd1 d rest
    else sd1Cap d (c :: buf) rest

end

mutual

/-- Scanning state of `.replace(/dd(.+?)dd/g, '$1')`. -/
def sd2 (d : Char) : List Char → List Char
  | [] => []
  | c :: rest => if c = d then sd2Op d rest else c :: sd2 d rest

/-- One `d` seen at scan level; a second opens a match. -/
def sd2Op (d : Char) : List Char → List Char
  | [] => [d]
  | c :: rest => if c = d then sd2Cap d [] rest else d :: c :: sd2 d rest

/-- Collecting the lazy nonempty capture after an opening `dd`; `buf` is
reversed; no pending `d`. -/
def sd2Cap (d : Char) (buf : List Char) : List Char → List Char
  | [] => d :: d :: buf.reverse
  | c :: rest =>
    if c = d then
      if buf = [] then sd2Cap d [c] rest else sd2CapD d buf rest
    else if isLineTerm c then d :: d :: buf.reverse ++ c :: sd2 d rest
    else sd2Cap d (c :: buf) rest

/-- Nonempty capture `buf` (reversed) followed by one pending `d`; another
`d` closes the match. -/
def sd2CapD (d : Char) (buf : List Char) : List Char → List Char
  | [] => d :: d :: buf.reverse ++ [d]
  | c :: rest =>
    if c = d then buf.reverse ++ sd2 d rest
    else if isLineTerm c then d :: d :: buf.reverse ++ d :: c :: sd2 d rest
    else sd2Cap d (c :: d :: buf) rest

end

mutual

/-- Scanning state of `.replace(/dd(.*?)dd/g, '$1')`. -/
def sd2E (d : Char) : List Char → List Char
  | [] => []
  | c :: rest => if c = d then sd2EOp d rest else c :: sd2E d rest

/-- One `d` seen at scan level; a second opens a match. -/
def sd2EOp (d : Char) : List Char → List Char
  | [] => [d]
  | c :: rest => if c = d then sd2ECap d [] rest else d :: c :: sd2E d rest

/-- Collecting the lazy possibly-empty capture after an opening `dd`; `buf`
is reversed; no pending `d`. -/
def sd2ECap (d : Char) (buf : List Char) : List Char → List Char
  | [] => d :: d :: buf.reverse
  | c :: rest =>
    if c = d then sd2ECapD d buf rest
    else if isLineTerm c then d :: d :: buf.reverse ++ c :: sd2E d rest
    else sd2ECap d (c :: buf) rest

/-- Capture `buf` (reversed, possibly empty) followed by one pending `d`;
another `d` closes the match. -/
def sd2ECapD (d : Char) (buf : List Char) : List Char → List Char
  | [] => d :: d :: buf.reverse ++ [d]
  | c :: rest =>
    if c = d then buf.reverse ++ sd2E d rest
    else if isLineTerm c then d :: d :: buf.reverse ++ d :: c :: sd2E d rest
    else sd2ECap d (c :: d :: buf) rest

end

namespace TextCleaner

/-- `cleanText` of `src/utils/textCleaner.ts`: falsy guard, HTML tag removal,
entity decoding, the six markdown substitutions, whitespace normalization,
trim. -/
def cleanText (text : List Char) : List Char :=
  if text = [] then []
  else
    let c1 := stripTags text
    let c2 := decodeHtmlEntities c1
    let c3 := sd2E '*' c2
    let c4 := sd1 '*' c3
    let c5 := sd2 '_' c4
    let c6 := sd1 '_' c5
    let c7 := sd2 '~' c6
    let c8 := sd1 '`' c7
    normalizeWs c8

end TextCleaner

namespace ExtractContent

/-- `.replace(/&nbsp;/g, " ")` of `extractBuilderContent.ts` `cleanText`. -/
def replNbsp : List Char → List Char
  | '&' :: 'n' :: 'b' :: 's' :: 'p' :: ';' :: rest => ' ' :: replNbsp rest
  | c :: rest => c :: replNbsp rest
  | [] => []

/-- `.replace(/&amp;/g, "&")`. -/
def replAmp : List Char → List Char
  | '&' :: 'a' :: 'm' :: 'p' :: ';' :: rest => '&' :: replAmp rest
  | c :: rest => c :: replAmp rest
  | [] => []

/-- `.replace(/&lt;/g, "<")`. -/
def replLt : List Char → List Char
  | '&' :: 'l' :: 't' :: ';' :: rest => '<' :: replLt rest
  | c :: rest => c :: replLt rest
  | [] => []

/-- `.replace(/&gt;/g, ">")`. -/
def replGt : List Char → List Char
  | '&' :: 'g' :: 't' :: ';' :: rest => '>' :: replGt rest
  | c :: rest => c :: replGt rest
  | [] => []

/-- `.replace(/&quot;/g, '"')`. -/
def replQuot : List Char → List Char
  | '&' :: 'q' :: 'u' :: 'o' :: 't' :: ';' :: rest => '"' :: replQuot rest
  | c :: rest => c :: replQuot rest
  | [] => []

/-- `.replace(/&#39;/g, "'")`. -/
def replApos : List Char → List Char
  | '&' :: '#' :: '3' :: '9' :: ';' :: rest => '\'' :: replApos rest
  | c :: rest => c :: replApos rest
  | [] => []

mutual

/-- `.replace(/&#(\d+);/g, (m, dec) => String.fromCharCode(dec))` as a state
machine (a failed candidate contains no `&`, so verbatim emission matches the
JS rescan). -/
def replDec : List Char → List Char
  | [] => []
  | c :: rest => if c = '&' then replDecAmp rest else c :: replDec rest

/-- Just after `&`. -/
def replDecAmp : List Char → List Char
  | [] => ['&']
  | c :: rest =>
    if c = '#' then replDecDigits [] rest
    else '&' :: (if c = '&' then replDecAmp rest else c :: replDec rest)

/-- Collecting `\d+` after `&#`; `ds` is reversed. -/
def replDecDigits (ds : List Char) : List Char → List Char
  | [] => '&' :: '#' :: ds.reverse
  | c :: rest =>
    if isDigitCh c then replDecDigits (c :: ds) rest
    else if c = ';' ∧ ds ≠ [] then
      jsFromCharCode (decToNat ds.reverse) :: replDec rest
    else '&' :: '#' :: ds.reverse ++
      (if c = '&' then replDecAmp rest else c :: replDec rest)

end

mutual

/-- `.replace(/&#x([0-9a-f]+);/gi, (m, hex) => String.fromCharCode(parseInt(hex, 16)))`
as a state machine; the `i` flag makes the literal `x` and the hex digits
case-insensitive. -/
def replHex : List Char → List Char
  | [] => []
  | c :: rest => if c = '&' then replHexAmp rest else c :: replHex rest

/-- Just after `&`. -/
def replHexAmp : List Char → List Char
  | [] => ['&']
  | c :: rest =>
    if c = '#' then replHexHash rest
    else '&' :: (if c = '&' then replHexAmp rest else c :: replHex rest)

/-- Just after `&#`, expecting `x` or `X`. -/
def replHexHash : List Char → List Char
  | [] => ['&', '#']
  | c :: rest =>
    if c = 'x' ∨ c = 'X' then replHexDigits c [] rest
    else '&' :: '#' :: (if c = '&' then replHexAmp rest else c :: replHex rest)

/-- Collecting `[0-9a-f]+` (case-insensitive) after `&#x`; `xc` is the `x` or
`X` actually seen, `ds` is reversed. -/
def replHexDigits (xc : Char) (ds : List Char) : List Char → List Char
  | [] => '&' :: '#' :: xc :: ds.reverse
  | c :: rest =>
    if isHexCh c then replHexDigits xc (c :: ds) rest
    else if c = ';' ∧ ds ≠ [] then
      jsFromCharCode (hexToNat ds.reverse) :: replHex rest
    else '&' :: '#' :: xc :: ds.reverse ++
      (if c = '&' then replHexAmp rest else c :: replHex rest)

end

/-- `cleanText` of `src/utils/extractBuilderContent.ts`: falsy guard, HTML
tag removal, the fixed-entity replacement chain, decimal and hex entity
replacement, the six markdown substitutions (here `\*\*(.+?)\*\*` has a
nonempty capture), whitespace normalization, trim. -/
def cleanText (text : List Char) : List Char :=
  if text = [] then []
  else
    let c1 := stripTags text
    let c2 := replNbsp c1
    let c3 := replAmp c2
    let c4 := replLt c3
    let c5 := replGt c4
    let c6 := replQuot c5
    let c7 := replApos c6
    let c8 := replDec c7
    let c9 := replHex c8
    let c10 := sd2 '*' c9
    let c11 := sd1 '*' c10
    let c12 := sd2 '_' c11
    let c13 := sd1 '_' c12
    let c14 := sd2 '~' c13
    let c15 := sd1 '`' c14
    normalizeWs c15

end ExtractContent

/-! ### `src/utils/searchBuilderContent.ts` -/

namespace Search

/-- `BuilderPageContent` (title, url, extracted texts) as consumed by
`searchBuilderContent`.  The source's guard for non-array `content` cannot
fire in the typed model. -/
structure BuilderPageContent where
  title : String
  url : String
  content : List (List Char)
deriving DecidableEq

/-- `SearchOptions`; `none` models an absent field, resolved to the
destructuring defaults inside `searchBuilderContent`. -/
structure SearchOptions where
  caseSensitive : Option Bool
  wholeWord : Option Bool
  minScore : Option ℚ
  contextWords : Option Nat
deriving DecidableEq

/-- `{}`: no options given. -/
def emptyOptions : SearchOptions := ⟨none, none, none, none⟩

/-- `SearchResult`. -/
structure SearchResult where
  pageTitle : String
  pageUrl : String
  text : List Char
  matchScore : ℚ
  excerpt : List Char
  matchPosition : Nat
deriving DecidableEq

/-- `calculateFinalScore`: `baseScore * (50 / Math.max(textLength, 50))`
(the max is taken in `Nat` before the cast; both operands are naturals). -/
def calculateFinalScore (baseScore : ℚ) (textLength : Nat) : ℚ :=
  baseScore * (50 / ((Nat.max textLength 50 : Nat) : ℚ))

/-- `hay.indexOf(needle, start)`: the first index `≥ max(start, 0)` at which
`needle` occurs, `-1` if none (for an empty needle, `min(start, length)`). -/
def jsIndexOf (needle hay : List Char) (start : Int) : Int :=
  match (List.range (hay.length + 1)).find?
      (fun i => decide (start.toNat ≤ i) && needle.isPrefixOf (hay.drop i)) with
  | some i => (i : Int)
  | none => if needle = [] then (hay.length : Int) else -1

mutual

/-- Collecting a field (`cur` reversed). -/
def splitField (cur : List Char) : List Char → List (List Char)
  | [] => [cur.reverse]
  | c :: rest =>
    if isJsWs c then cur.reverse :: splitSep rest else splitField (c :: cur) rest

/-- Inside a whitespace run whose left field was already emitted. -/
def splitSep : List Char → List (List Char)
  | [] => [[]]
  | c :: rest => if isJsWs c then splitSep rest else splitField [c] rest

end

/-- JS `str.split(/\s+/)`: fields between maximal whitespace runs (leading or
trailing runs produce empty fields; splitting the empty string gives `[""]`). -/
def jsSplitWs (l : List Char) : List (List Char) := splitField [] l

/-- The word/position traversal of `generateExcerpt`: each split word is
located with `indexOf(word, currentPosition)` and flagged when its span
overlaps the match (`startPos <= matchIndex + matchLength - 1 && endPos >
matchIndex`, evaluated over JS numbers, hence in `Int`). -/
def excerptFlags (cleanedText : List Char) (matchIndex matchLength : Nat)
    (currentPosition : Int) : List (List Char) → List (List Char × Bool)
  | [] => []
  | w :: ws =>
    let startPos := jsIndexOf w cleanedText currentPosition
    let endPos := startPos + (w.length : Int)
    let isM := decide (startPos ≤ (matchIndex : Int) + (matchLength : Int) - 1) &&
      decide (endPos > (matchIndex : Int))
    (w, isM) :: excerptFlags cleanedText matchIndex matchLength endPos ws

/-- `generateExcerpt(text, matchIndex, matchLength, contextWords)`. -/
def generateExcerpt (text : List Char) (matchIndex matchLength contextWords : Nat) :
    List Char :=
  let cleanedText := TextCleaner.cleanText text
  let flags := excerptFlags cleanedText matchIndex matchLength 0 (jsSplitWs cleanedText)
  match flags.findIdx? (fun wf => wf.2) with
  | none =>
    -- fallback: cleanedText.substring(max(0, mi - 50), min(len, mi + ml + 50))
    let a := min cleanedText.length (matchIndex - 50)
    let b := min cleanedText.length (matchIndex + matchLength + 50)
    (cleanedText.take (max a b)).drop (min a b)
  | some m =>
    let s := m - contextWords
    let e := min flags.length (m + contextWords + 1)
    (if 0 < s then ['.', '.', '.', ' '] else []) ++
      List.intercalate [' '] (((flags.map (fun wf => wf.1)).take e).drop s) ++
      (if e < flags.length then [' ', '.', '.', '.'] else [])

/-- One character of the case canonicalization of a regex with the `i` flag
(resp. none), restricted to ASCII. -/
def charFoldEq (cs : Bool) (a b : Char) : Bool :=
  if cs then a == b else asciiLower a == asciiLower b

/-- Is the character at index `n` a word character (`\w`)?  Out of range
counts as non-word. -/
def isWordAt (text : List Char) (n : Nat) : Bool :=
  (text[n]?.map isWordChar).getD false

/-- JS `\b` at position `i`: the word-character status of the characters on
the two sides differs (absent characters are non-word). -/
def boundaryAt (text : List Char) (i : Nat) : Bool :=
  (if i = 0 then false else isWordAt text (i - 1)) != isWordAt text i

/-- The escaped literal `pat` matches at index `i` (case-folded iff the regex
was built without `caseSensitive`). -/
def litMatchAt (pat text : List Char) (cs : Bool) (i : Nat) : Bool :=
  decide (i + pat.length ≤ text.length) &&
    (List.zip pat (text.drop i)).all (fun p => charFoldEq cs p.1 p.2)

/-- A whole-word match of `new RegExp('\\b' + escapeRegExp(pat) + '\\b')` at
index `i`. -/
def wwMatchAt (pat text : List Char) (cs : Bool) (i : Nat) : Bool :=
  boundaryAt text i && litMatchAt pat text cs i && boundaryAt text (i + pat.length)

/-- `regex.exec` search: first whole-word match index at or after
`lastIndex`. -/
def wwFindFrom (pat text : List Char) (cs : Bool) (start : Nat) : Option Nat :=
  (List.range (text.length + 1)).find? (fun i => decide (start ≤ i) && wwMatchAt pat text cs i)

/-- The `while ((match = wholeWordRegex.exec(cleanedText)) !== null)` loop:
each match advances `lastIndex` by the (positive) pattern length.  The fuel
`text.length + 1` is sufficient for a nonempty pattern (proved in
`collectWW_eq_filter`); with an empty pattern the JS loop would not
terminate, which the caller models separately. -/
def collectWWLoop (pat text : List Char) (cs : Bool) : Nat → Nat → List Nat
  | 0, _ => []
  | fuel + 1, start =>
    match wwFindFrom pat text cs start with
    | none => []
    | some i => i :: collectWWLoop pat text cs fuel (i + pat.length)

/-- All whole-word match indices in scan order. -/
def collectWW (pat text : List Char) (cs : Bool) : List Nat :=
  collectWWLoop pat text cs (text.length + 1) 0

/-- The `position = normalizedText.indexOf(normalizedSearchTerm); while
(position !== -1) ... position = normalizedText.indexOf(term, position + 1)`
loop.  Fuel as in `collectWWLoop`. -/
def collectSubLoop (pat text : List Char) : Nat → Int → List Nat
  | 0, _ => []
  | fuel + 1, start =>
    let p := jsIndexOf pat text start
    if p = -1 then [] else p.toNat :: collectSubLoop pat text fuel (p + 1)

/-- All substring match indices in scan order. -/
def collectSub (pat text : List Char) : List Nat :=
  collectSubLoop pat text (text.length + 1) 0

/-- The push loop shared by both branches: the running `matchScore` grows by
`w` (2 for whole-word, 1 for substring) per match and each pushed result uses
`calculateFinalScore` of the running score. -/
def pushLoop (pageTitle pageUrl : String) (cleanedText : List Char)
    (w : ℚ) (patLen contextWords : Nat) : List Nat → ℚ → List SearchResult
  | [], _ => []
  | pos :: rest, acc =>
    { pageTitle := pageTitle, pageUrl := pageUrl, text := cleanedText,
      matchScore := calculateFinalScore (acc + w) cleanedText.length,
      excerpt := generateExcerpt cleanedText pos patLen contextWords,
      matchPosition := pos } ::
      pushLoop pageTitle pageUrl cleanedText w patLen contextWords rest (acc + w)

/-- Processing of one page text: clean, normalize, then the whole-word or
substring matching loop. -/
def searchText (pageTitle pageUrl : String) (cs ww : Bool) (contextWords : Nat)
    (pat : List Char) (text : List Char) : List SearchResult :=
  let cleanedText := TextCleaner.cleanText text
  let normalizedText := if cs then cleanedText else jsToLower cleanedText
  if ww then
    pushLoop pageTitle pageUrl cleanedText 2 pat.length contextWords
      (collectWW pat cleanedText cs) 0
  else
    pushLoop pageTitle pageUrl cleanedText 1 pat.length contextWords
      (collectSub pat normalizedText) 0

/-- The flat list `results` accumulated over all pages and texts, before the
`minScore` filter; `none` models the divergence of the matching loops on an
empty (cleaned, normalized) search term: the substring loop never terminates
on the first text it reaches, and the whole-word regex `\b\b` loops on the
first text whose cleaned form contains a word character. -/
def searchRaw (content : List BuilderPageContent) (searchTerm : List Char)
    (options : SearchOptions) : Option (List SearchResult) :=
  if searchTerm = [] ∨ jsTrim searchTerm = [] then some [] else
  let cleanedSearchTerm := TextCleaner.cleanText searchTerm
  let cs := options.caseSensitive.getD false
  let ww := options.wholeWord.getD false
  let contextWords := options.contextWords.getD 5
  let normalizedSearchTerm := if cs then cleanedSearchTerm else jsToLower cleanedSearchTerm
  if normalizedSearchTerm = [] then
    if ww then
      if content.any (fun p => p.content.any
          (fun t => (TextCleaner.cleanText t).any isWordChar)) then none
      else some []
    else
      if content.any (fun p => !p.content.isEmpty) then none
      else some []
  else
    some (content.flatMap (fun page =>
      page.content.flatMap (fun text =>
        searchText page.title page.url cs ww contextWords normalizedSearchTerm text)))

/-- `searchBuilderContent`: the raw results filtered by `minScore` (default
0.1) and stable-sorted by `(a, b) => b.matchScore - a.matchScore`. -/
def searchBuilderContent (content : List BuilderPageContent) (searchTerm : List Char)
    (options : SearchOptions) : Option (List SearchResult) :=
  match searchRaw content searchTerm options with
  | none => none
  | some results =>
    let minScore := options.minScore.getD (1 / 10)
    let filteredResults := results.filter (fun r => decide (minScore ≤ r.matchScore))
    some (filteredResults.mergeSort (fun a b => decide (b.matchScore ≤ a.matchScore)))

/-- The declarative occurrence list: every starting index at which `pat`
occurs in `text` (overlapping occurrences included), in increasing order. -/
def occurrencesSpec (pat text : List Char) : List Nat :=
  (List.range text.length).filter (fun i => pat.isPrefixOf (text.drop i))

/-- Claim-side description of the substring results for one page text: one
result per occurrence of the normalized search term in the normalized cleaned
text, in scan order, with `matchPosition` the occurrence index. -/
def substringResultsSpec (title url : String) (cs : Bool) (contextWords : Nat)
    (pat text : List Char) : List SearchResult :=
  let cleanedText := TextCleaner.cleanText text
  let normalizedText := if cs then cleanedText else jsToLower cleanedText
  ((occurrencesSpec pat normalizedText).enumFrom 1).map (fun kp =>
    { pageTitle := title, pageUrl := url, text := cleanedText,
      matchScore := (kp.1 : ℚ) * (50 / ((Nat.max cleanedText.length 50 : Nat) : ℚ)),
      excerpt := generateExcerpt cleanedText kp.2 pat.length contextWords,
      matchPosition := kp.2 })

/-- Start position of each split field of a whitespace-normal text, paired
with the field: adjacent fields are separated by a single space. -/
def wordStarts (acc : Nat) : List (List Char) → List (Nat × List Char)
  | [] => []
  | w :: ws => (acc, w) :: wordStarts (acc + w.length + 1) ws

/-- The source's overlap test of a word span `[start, start + wlen)` against
the match `[pos, pos + mlen)`, in JS number arithmetic. -/
def overlapB (start wlen pos mlen : Nat) : Bool :=
  decide ((start : Int) ≤ (pos : Int) + (mlen : Int) - 1) &&
    decide ((start : Int) + (wlen : Int) > (pos : Int))

/-- Claim-side description of `generateExcerpt` when a matched word is found
(`none` when no split word overlaps the match): at most `contextWords` words
before the first overlapping word and at most `contextWords` words after it,
joined by single spaces, prefixed by `'... '` exactly when words were omitted
at the start and suffixed by `' ...'` exactly when words were omitted at the
end. -/
def excerptSpec (ct : List Char) (pos mlen n : Nat) : Option (List Char) :=
  let ws := jsSplitWs ct
  match (wordStarts 0 ws).findIdx? (fun sw => overlapB sw.1 sw.2.length pos mlen) with
  | none => none
  | some m =>
    let s := m - n
    let e := min ws.length (m + n + 1)
    some ((if 0 < s then "... ".data else []) ++
      List.intercalate [' '] ((ws.take e).drop s) ++
      (if e < ws.length then " ...".data else []))

end Search

/-! ### JSON model

Builder.io API payloads are untyped JSON (`any` in the source).  JS objects
are modeled as insertion-ordered association lists; `Object.entries` on an
array yields stringified index keys. -/

inductive JsonVal where
  | str (s : List Char)
  | num (q : ℚ)
  | jsbool (b : Bool)
  | null
  | arr (xs : List JsonVal)
  | obj (fields : List (List Char × JsonVal))

/-- Is the value JS-truthy?  (`""`, `0`, `false`, `null`/`undefined` are
falsy; objects and arrays are always truthy.  `NaN` is not modeled.) -/
def truthyV : JsonVal → Bool
  | .str s => !s.isEmpty
  | .num q => !(q == 0)
  | .jsbool b => b
  | .null => false
  | .arr _ => true
  | .obj _ => true

/-- Truthiness of a possibly-`undefined` value. -/
def truthy : Option JsonVal → Bool
  | none => false
  | some v => truthyV v

/-- `Object.entries`. -/
def jsEntries : JsonVal → List (List Char × JsonVal)
  | .obj fields => fields
  | .arr xs => xs.enum.map (fun kv => ((Nat.repr kv.1).data, kv.2))
  | _ => []

/-- Property access `o[k]` (`none` = `undefined`).  Primitive values have no
own properties relevant here. -/
def jsLookup (o : JsonVal) (k : List Char) : Option JsonVal := (jsEntries o).lookup k

/-- Decimal representation of a rational, standing in for JS number
formatting (which is not modeled precisely; no claim depends on it). -/
def ratRepr (q : ℚ) : List Char :=
  if q.den = 1 then (Int.repr q.num).data
  else (Int.repr q.num).data ++ '/' :: (Nat.repr q.den).data

mutual

/-- `String(v)` coercion (`Array.prototype.toString` joins stringified
elements with commas, `null` elements becoming empty; objects print
`[object Object]`; the exact JS formatting of numbers is abstracted by
`ratRepr`). -/
def jsToString : JsonVal → List Char
  | .str s => s
  | .num q => ratRepr q
  | .jsbool b => if b then "true".data else "false".data
  | .null => "null".data
  | .arr xs => jsToStringArr xs
  | .obj _ => "[object Object]".data

/-- `Array.prototype.join(",")` over stringified elements. -/
def jsToStringArr : List JsonVal → List Char
  | [] => []
  | [v] => jsToStringElem v
  | v :: w :: rest => jsToStringElem v ++ ',' :: jsToStringArr (w :: rest)

/-- One array element under `join`: `null` (and `undefined`) print as
nothing. -/
def jsToStringElem : JsonVal → List Char
  | .null => []
  | .str s => s
  | .num q => ratRepr q
  | .jsbool b => if b then "true".data else "false".data
  | .arr xs => jsToStringArr xs
  | .obj _ => "[object Object]".data

end

/-- `String(x)` for a possibly-undefined value (template-literal
interpolation prints `undefined`). -/
def jsToStringU : Option JsonVal → List Char
  | none => "undefined".data
  | some v => jsToString v

/-- Is the value a JS object (`typeof v === "object" && v !== null`)? -/
def isObjLike : JsonVal → Bool
  | .arr _ => true
  | .obj _ => true
  | _ => false

/-- Worker for `dedupKeepFirst` (`seen` holds emitted elements). -/
def dedupGo (seen : List (List Char)) : List (List Char) → List (List Char)
  | [] => []
  | x :: rest => if x ∈ seen then dedupGo seen rest else x :: dedupGo (x :: seen) rest

/-- `[...new Set(l)]`: deduplicate keeping first occurrences. -/
def dedupKeepFirst (l : List (List Char)) : List (List Char) := dedupGo [] l

namespace ExtractContent

/-- `DEFAULT_TEXT_FIELDS`. -/
def defaultTextFields : List (List Char) :=
  ["text".data, "title".data, "textContent".data, "description".data]

/-- The `key === "@type" && value === "@builder.io/core:LocalizedValue"`
test. -/
def isLocalizedMarker (k : List Char) (v : JsonVal) : Bool :=
  k == "@type".data &&
    (match v with
     | .str s => s == "@builder.io/core:LocalizedValue".data
     | _ => false)

/-- `obj[locale] || obj["Default"]`. -/
def localizedValue (whole : JsonVal) (locale : List Char) : Option JsonVal :=
  let a := jsLookup whole locale
  if truthy a then a else jsLookup whole "Default".data

/-- The texts pushed by the localized-marker branch:
`const localizedText = obj[locale] || obj["Default"]; if (localizedText)
texts.push(cleanText(localizedText))`. -/
def markerTexts (whole : JsonVal) (locale : List Char) : List (List Char) :=
  match localizedValue whole locale with
  | none => []
  | some v => if truthyV v then [cleanText (jsToString v)] else []

/-- Claim-side description of the localized-marker extraction (following the
claim's words): at most one text — `cleanText` of the locale value when
truthy, else `cleanText` of the `"Default"` value when truthy, else
nothing. -/
def markerTextOpt (whole : JsonVal) (locale : List Char) : Option (List Char) :=
  match jsLookup whole locale with
  | some v =>
    if truthyV v then some (cleanText (jsToString v))
    else
      match jsLookup whole "Default".data with
      | some d => if truthyV d then some (cleanText (jsToString d)) else none
      | none => none
  | none =>
    match jsLookup whole "Default".data with
    | some d => if truthyV d then some (cleanText (jsToString d)) else none
    | none => none

mutual

/-- `extractTextFieldsFromObject` of `extractBuilderContent.ts`: the
recursive `Object.entries` walk. -/
def extractTextFieldsFromObject (locale : List Char) (textFields : List (List Char)) :
    JsonVal → List (List Char)
  | .obj fs => extractEntries locale textFields (.obj fs) fs
  | .arr xs => extractArrEntries locale textFields (.arr xs) 0 xs
  | _ => []

/-- The `forEach` over `Object.entries(obj)` of an object. -/
def extractEntries (locale : List Char) (textFields : List (List Char))
    (whole : JsonVal) : List (List Char × JsonVal) → List (List Char)
  | [] => []
  | (k, v) :: rest =>
    ((if isLocalizedMarker k v then markerTexts whole locale else []) ++
     (match v with
      | .str s => if k ∈ textFields then [cleanText s] else []
      | _ => []) ++
     (if isObjLike v then extractTextFieldsFromObject locale textFields v
      else [])) ++
    extractEntries locale textFields whole rest

/-- The same `forEach` over the stringified-index entries of an array. -/
def extractArrEntries (locale : List Char) (textFields : List (List Char))
    (whole : JsonVal) (i : Nat) : List JsonVal → List (List Char)
  | [] => []
  | v :: rest =>
    ((if isLocalizedMarker ((Nat.repr i).data) v then markerTexts whole locale else []) ++
     (match v with
      | .str s => if (Nat.repr i).data ∈ textFields then [cleanText s] else []
      | _ => []) ++
     (if isObjLike v then extractTextFieldsFromObject locale textFields v
      else [])) ++
    extractArrEntries locale textFields whole (i + 1) rest

end

/-- A formatted page (`BuilderPageContent` as produced by
`extractBuilderContent`; the source does not coerce `title`/`url`, so they
keep whatever JSON value the `||` chains produce). -/
structure BuilderPage where
  title : JsonVal
  url : JsonVal
  content : List (List Char)

/-- `ExtractBuilderContentOptions` (`none` = absent). -/
structure ExtractOptions where
  locale : Option (List Char)
  textFields : Option (List (List Char))
  contentTransformer : Option (List BuilderPage → List JsonVal → List BuilderPage)

/-- `a || b || c` over possibly-undefined values with a defined fallback. -/
def firstTruthy2 (a b : Option JsonVal) (c : JsonVal) : JsonVal :=
  if truthy a then a.getD .null else if truthy b then b.getD .null else c

/-- `extractBuilderContent(builderResults, options)`. -/
def extractBuilderContent (builderResults : List JsonVal) (options : ExtractOptions) :
    List BuilderPage :=
  let locale := options.locale.getD "us-en".data
  let textFields := options.textFields.getD []
  let allTextFields := dedupKeepFirst (defaultTextFields ++ textFields)
  let formattedContent := builderResults.flatMap (fun result =>
    let data := jsLookup result "data".data
    let pageTitle := firstTruthy2 (data.bind (fun d => jsLookup d "title".data))
      (jsLookup result "name".data)
      (.str ("Page-".data ++ jsToStringU (jsLookup result "id".data)))
    let pageUrl := firstTruthy2 (data.bind (fun d => jsLookup d "url".data))
      (data.bind (fun d => jsLookup d "path".data)) (.str "#".data)
    let blocks := data.bind (fun d => jsLookup d "blocks".data)
    let pageTexts :=
      if truthy blocks then
        extractTextFieldsFromObject locale allTextFields (blocks.getD .null)
      else []
    if pageTexts.isEmpty then [] else [⟨pageTitle, pageUrl, pageTexts⟩])
  match options.contentTransformer with
  | some f => f formattedContent builderResults
  | none => formattedContent

end ExtractContent

/-! ### `src/utils/fetchBuilderTextContent.ts` -/

namespace FetchText

mutual

/-- `.replace(/(?<!\w)[*_](?!\s)(.+?)(?<!\s)[*_](?!\w)/g, '$1')` as a state
machine.  `prevW` is whether the previous character is a word character (the
`(?<!\w)` lookbehind; start of input counts as non-word).  A failed attempt
(line terminator or end of input before a valid closer) emits the region
verbatim: every delimiter inside it was already rejected as a closer by a
position-local test, so no attempt starting inside the region can close
either. -/
def fcItal (prevW : Bool) : List Char → List Char
  | [] => []
  | c :: rest =>
    if (c = '*' ∨ c = '_') ∧ prevW = false then fcItalOpen c rest
    else c :: fcItal (isWordChar c) rest

/-- Opener candidate `d` seen with its lookbehind satisfied; the `(?!\s)`
lookahead and the first (mandatory) capture character are next. -/
def fcItalOpen (d : Char) : List Char → List Char
  | [] => [d]
  | c :: rest =>
    if isJsWs c then d :: c :: fcItal (isWordChar c) rest
    else fcItalCap d [c] rest

/-- Collecting the lazy capture (reversed in `buf`, nonempty).  A `*` or `_`
whose preceding captured character is not whitespace is a closer candidate. -/
def fcItalCap (d : Char) (buf : List Char) : List Char → List Char
  | [] => d :: buf.reverse
  | c :: rest =>
    if isLineTerm c then d :: buf.reverse ++ c :: fcItal (isWordChar c) rest
    else if (c = '*' ∨ c = '_') ∧ (buf.head?.all (fun b => !isJsWs b)) then
      fcItalCloser d buf c rest
    else fcItalCap d (c :: buf) rest

/-- Closer candidate `cl` after capture `buf`; the `(?!\w)` lookahead
decides.  On a match the scan resumes right after `cl`: a following delimiter
can open a new match only when `cl` is not a word character — a `'_'` closer
is `\w`, so it blocks the `(?<!\w)` lookbehind of the next position, while a
`'*'` closer does not. -/
def fcItalCloser (d : Char) (buf : List Char) (cl : Char) : List Char → List Char
  | [] => buf.reverse
  | c :: rest =>
    if isWordChar c then fcItalCap d (c :: cl :: buf) rest
    else
      buf.reverse ++
        (if (c = '*' ∨ c = '_') ∧ isWordChar cl = false then fcItalOpen c rest
         else c :: fcItal (isWordChar c) rest)

end

/-- `cleanText` of `src/utils/fetchBuilderTextContent.ts`: `String(text)`,
HTML tag removal, `decodeHtmlEntities` (same code as `textCleaner.ts`),
`\*\*(.*?)\*\*`, the lookaround italic substitution, whitespace
normalization, trim.  (This version has no falsy guard.) -/
def cleanText (text : List Char) : List Char :=
  let c1 := stripTags text
  let c2 := TextCleaner.decodeHtmlEntities c1
  let c3 := sd2E '*' c2
  let c4 := fcItal false c3
  normalizeWs c4

/-- The lowercased key list of `extractTextFields`. -/
def ftTextKeys : List (List Char) :=
  ["text".data, "title".data, "heading".data, "subheading".data,
   "description".data, "caption".data, "label".data, "buttontext".data,
   "alttext".data, "name".data, "content".data, "plaintext".data,
   "summary".data, "testimonial".data, "blockquote".data]

/-- `obj["@type"] === "@builder.io/core:LocalizedValue"`. -/
def isLocalizedObj (fs : List (List Char × JsonVal)) : Bool :=
  match jsLookup (.obj fs) "@type".data with
  | some (.str s) => s == "@builder.io/core:LocalizedValue".data
  | _ => false

/-- The `LocalizedValue` branch of `extractTextFields`: push the cleaned
locale (or `Default`) value when it is truthy and a string and cleans to a
nonempty text; do not recurse further. -/
def ftLocalizedTexts (fs : List (List Char × JsonVal)) (locale : List Char) :
    List (List Char) :=
  match ExtractContent.localizedValue (.obj fs) locale with
  | some (.str s) =>
    if !s.isEmpty then
      (if (cleanText s).isEmpty then [] else [cleanText s])
    else []
  | _ => []

/-- The push of one qualifying string value (`typeof value === "string" &&
value.trim()`, then `if (cleaned) texts.push(cleaned)`). -/
def ftStringText (s : List Char) : List (List Char) :=
  if !(jsTrim s).isEmpty then
    (if (cleanText s).isEmpty then [] else [cleanText s])
  else []

/-- `return [...new Set(texts)].filter(Boolean)`. -/
def dedupFilter (l : List (List Char)) : List (List Char) :=
  (dedupKeepFirst l).filter (fun t => !t.isEmpty)

mutual

/-- `extractTextFields` of `fetchBuilderTextContent.ts`.  (The source's
`else if (Array.isArray(value))` branch is unreachable: arrays already
satisfy `typeof value === "object"` and are handled by the recursion
branch.) -/
def ftExtract (locale : List Char) : JsonVal → List (List Char)
  | .obj fs =>
    if isLocalizedObj fs then ftLocalizedTexts fs locale
    else dedupFilter (ftEntries locale fs)
  | .arr xs => dedupFilter (ftArrEntries locale 0 xs)
  | .str s => dedupFilter (ftStringText s)
  | _ => []

/-- The `forEach` over the entries of an object: a qualifying string field is
pushed, otherwise objects and arrays are recursed into. -/
def ftEntries (locale : List Char) : List (List Char × JsonVal) → List (List Char)
  | [] => []
  | (k, v) :: rest =>
    (match v with
     | .str s =>
       if jsToLower k ∈ ftTextKeys ∧ !(jsTrim s).isEmpty then
         (if (cleanText s).isEmpty then [] else [cleanText s])
       else []
     | _ => if isObjLike v then ftExtract locale v else []) ++
    ftEntries locale rest

/-- The same `forEach` over the stringified-index entries of an array. -/
def ftArrEntries (locale : List Char) (i : Nat) : List JsonVal → List (List Char)
  | [] => []
  | v :: rest =>
    (match v with
     | .str s =>
       if jsToLower ((Nat.repr i).data) ∈ ftTextKeys ∧ !(jsTrim s).isEmpty then
         (if (cleanText s).isEmpty then [] else [cleanText s])
       else []
     | _ => if isObjLike v then ftExtract locale v else []) ++
    ftArrEntries locale (i + 1) rest

end

end FetchText

/-! ## Theorems -/

theorem noDoubleWs_cons_of (c : Char) (l : List Char)
    (h : noDoubleWs l = true) (hc : headNotWs l = true ∨ isJsWs c = false) :
    noDoubleWs (c :: l) = true := by
  cases l with
  | nil => simp [noDoubleWs]
  | cons b rest =>
    simp only [noDoubleWs, Bool.and_eq_true, Bool.not_eq_true'] at h ⊢
    refine ⟨?_, h⟩
    rcases hc with hh | hc
    · simp only [headNotWs, Bool.not_eq_true'] at hh
      simp [hh]
    · simp [hc]

theorem noDoubleWs_tail (c : Char) (l : List Char)
    (h : noDoubleWs (c :: l) = true) : noDoubleWs l = true := by
  cases l with
  | nil => simp [noDoubleWs]
  | cons b rest =>
    simp only [noDoubleWs, Bool.and_eq_true] at h
    exact h.2

mutual

theorem collapseWs_headNotWs_or_space : ∀ l : List Char,
    headNotWs (collapseWs l) = true ∨
      ∃ r, collapseWs l = ' ' :: r ∧ headNotWs r = true
  | [] => Or.inl rfl
  | c :: rest => by
    by_cases h : isJsWs c = true
    · right
      refine ⟨collapseWsRun rest, by simp [collapseWs, h], ?_⟩
      exact collapseWsRun_headNotWs rest
    · left
      simp only [collapseWs, h, Bool.false_eq_true, if_false]
      simp [headNotWs, h]

theorem collapseWsRun_headNotWs : ∀ l : List Char,
    headNotWs (collapseWsRun l) = true
  | [] => rfl
  | c :: rest => by
    by_cases h : isJsWs c = true
    · simp only [collapseWsRun, h, if_true]
      exact collapseWsRun_headNotWs rest
    · simp only [collapseWsRun, h, Bool.false_eq_true, if_false]
      simp [headNotWs, h]

end

mutual

theorem collapseWs_noDoubleWs : ∀ l : List Char,
    noDoubleWs (collapseWs l) = true
  | [] => rfl
  | c :: rest => by
    by_cases h : isJsWs c = true
    · simp only [collapseWs, h, if_true]
      exact noDoubleWs_cons_of _ _ (collapseWsRun_noDoubleWs rest)
        (Or.inl (collapseWsRun_headNotWs rest))
    · simp only [collapseWs, h, Bool.false_eq_true, if_false]
      exact noDoubleWs_cons_of _ _ (collapseWs_noDoubleWs rest) (Or.inr (by simp [h]))

theorem collapseWsRun_noDoubleWs : ∀ l : List Char,
    noDoubleWs (collapseWsRun l) = true
  | [] => rfl
  | c :: rest => by
    by_cases h : isJsWs c = true
    · simp only [collapseWsRun, h, if_true]
      exact collapseWsRun_noDoubleWs rest
    · simp only [collapseWsRun, h, Bool.false_eq_true, if_false]
      exact noDoubleWs_cons_of _ _ (collapseWs_noDoubleWs rest) (Or.inr (by simp [h]))

end

theorem trimLeftWs_headNotWs (l : List Char) : headNotWs (trimLeftWs l) = true := by
  induction l with
  | nil => rfl
  | cons c rest ih =>
    by_cases h : isJsWs c = true
    · simpa [trimLeftWs, List.dropWhile, h] using ih
    · simp [trimLeftWs, List.dropWhile, h, headNotWs]

theorem trimLeftWs_noDoubleWs (l : List Char)
    (h : noDoubleWs l = true) : noDoubleWs (trimLeftWs l) = true := by
  induction l with
  | nil => exact h
  | cons c rest ih =>
    by_cases hc : isJsWs c = true
    · simpa [trimLeftWs, List.dropWhile, hc] using ih (noDoubleWs_tail _ _ h)
    · simpa [trimLeftWs, List.dropWhile, hc] using h

theorem trimRightWs_head (l : List Char) :
    trimRightWs l = [] ∨ ∃ c r rest, l = c :: rest ∧ trimRightWs l = c :: r := by
  cases l with
  | nil => exact Or.inl rfl
  | cons c rest =>
    simp only [trimRightWs]
    cases htr : trimRightWs rest with
    | nil =>
      by_cases h : isJsWs c = true
      · simp [h]
      · exact Or.inr ⟨c, [], rest, rfl, by simp [h]⟩
    | cons b r => exact Or.inr ⟨c, b :: r, rest, rfl, rfl⟩

theorem trimRightWs_lastNotWs (l : List Char) : lastNotWs (trimRightWs l) = true := by
  induction l with
  | nil => rfl
  | cons c rest ih =>
    simp only [trimRightWs]
    cases htr : trimRightWs rest with
    | nil =>
      by_cases h : isJsWs c = true
      · simp [h, lastNotWs]
      · simp [h, lastNotWs]
    | cons b r =>
      rw [htr] at ih
      simpa [lastNotWs] using ih

theorem trimRightWs_headNotWs (l : List Char)
    (h : headNotWs l = true) : headNotWs (trimRightWs l) = true := by
  rcases trimRightWs_head l with h0 | ⟨c, r, rest, hl, htr⟩
  · simp [h0, headNotWs]
  · rw [htr]
    rw [hl] at h
    simpa [headNotWs] using h

theorem trimRightWs_noDoubleWs (l : List Char)
    (h : noDoubleWs l = true) : noDoubleWs (trimRightWs l) = true := by
  induction l with
  | nil => exact h
  | cons c rest ih =>
    simp only [trimRightWs]
    cases htr : trimRightWs rest with
    | nil =>
      by_cases hc : isJsWs c = true
      · simp [hc, noDoubleWs]
      · simp [hc, noDoubleWs]
    | cons b r =>
      have hrest := ih (noDoubleWs_tail _ _ h)
      rw [htr] at hrest
      rcases trimRightWs_head rest with h0 | ⟨c2, r2, rest2, hl2, htr2⟩
      · rw [h0] at htr
        exact absurd htr (by simp)
      · rw [htr] at htr2
        injection htr2 with hb hr
        subst hl2
        subst hb
        by_cases hwc : isJsWs c = true
        · have hc2 : isJsWs b = false := by
            simp only [noDoubleWs, Bool.and_eq_true, Bool.not_eq_true'] at h
            rcases Bool.and_eq_false_iff.mp h.1 with hx | hx
            · exact absurd hwc (by simp [hx])
            · exact hx
          exact noDoubleWs_cons_of _ _ hrest (Or.inl (by simp [headNotWs, hc2]))
        · exact noDoubleWs_cons_of _ _ hrest (Or.inr (by simpa using hwc))

theorem normalizeWs_wsNormal (l : List Char) : wsNormal (normalizeWs l) = true := by
  have h1 := collapseWs_noDoubleWs l
  have h2 := trimLeftWs_noDoubleWs _ h1
  have h3 := trimLeftWs_headNotWs (collapseWs l)
  unfold wsNormal normalizeWs jsTrim
  rw [trimRightWs_noDoubleWs _ h2, trimRightWs_headNotWs _ h3, trimRightWs_lastNotWs _]
  rfl

theorem hasGt_append (a b : List Char) : hasGt (a ++ b) = (hasGt a || hasGt b) := by
  induction a with
  | nil => simp [hasGt]
  | cons c rest ih => simp [hasGt, ih, Bool.or_assoc]

theorem hasGt_reverse (l : List Char) : hasGt l.reverse = hasGt l := by
  induction l with
  | nil => rfl
  | cons c rest ih =>
    simp [hasGt, List.reverse_cons, hasGt_append, ih, Bool.or_comm]

theorem hasTag_of_no_gt (l : List Char) (h : hasGt l = false) : hasTag l = false := by
  induction l with
  | nil => rfl
  | cons c rest ih =>
    simp only [hasGt, Bool.or_eq_false_iff] at h
    simp [hasTag, h.2, ih h.2]

mutual

theorem stripTags_hasTag : ∀ l : List Char, hasTag (stripTags l) = false
  | [] => rfl
  | c :: rest => by
    by_cases h : c = '<'
    · simp only [stripTags, h, if_true]
      exact stripTagsIn_hasTag ['<'] rest rfl
    · simp only [stripTags, h, if_false]
      have hr := stripTags_hasTag rest
      simp [hasTag, hr, h]

theorem stripTagsIn_hasTag : ∀ (buf l : List Char), hasGt buf = false →
    hasTag (stripTagsIn buf l) = false
  | buf, [], hbuf => by
    simp only [stripTagsIn]
    exact hasTag_of_no_gt _ (by rw [hasGt_reverse]; exact hbuf)
  | buf, c :: rest, hbuf => by
    by_cases h : c = '>'
    · simp only [stripTagsIn, h, if_true]
      exact stripTags_hasTag rest
    · simp only [stripTagsIn, h, if_false]
      exact stripTagsIn_hasTag (c :: buf) rest (by simp [hasGt, h, hbuf])

end

theorem hasGt_first_split (l : List Char) (h : hasGt l = true) :
    ∃ m b, l = m ++ '>' :: b ∧ hasGt m = false := by
  induction l with
  | nil => exact absurd h (by simp [hasGt])
  | cons c rest ih =>
    by_cases hc : c = '>'
    · exact ⟨[], rest, by simp [hc], rfl⟩
    · simp only [hasGt, Bool.or_eq_true] at h
      rcases h with h | h
      · exact absurd h (by simp [hc])
      · rcases ih h with ⟨m, b, hl, hm⟩
        exact ⟨c :: m, b, by simp [hl], by simp [hasGt, hc, hm]⟩

/-- `hasTag` is exactly "contains a substring matching `<[^>]*>`". -/
theorem hasTag_iff (l : List Char) :
    hasTag l = true ↔
      ∃ a m b, l = a ++ '<' :: (m ++ '>' :: b) ∧ hasGt m = false := by
  constructor
  · intro h
    induction l with
    | nil => exact absurd h (by simp [hasTag])
    | cons c rest ih =>
      simp only [hasTag, Bool.or_eq_true, Bool.and_eq_true, beq_iff_eq] at h
      rcases h with ⟨hc, hgt⟩ | h
      · rcases hasGt_first_split rest hgt with ⟨m, b, hrest, hm⟩
        exact ⟨[], m, b, by simp [hc, hrest], hm⟩
      · rcases ih h with ⟨a, m, b, hl, hm⟩
        exact ⟨c :: a, m, b, by simp [hl], hm⟩
  · rintro ⟨a, m, b, hl, _⟩
    subst hl
    induction a with
    | nil =>
      simp [hasTag, hasGt_append, hasGt]
    | cons x a ih =>
      simp only [List.cons_append, hasTag, Bool.or_eq_true]
      exact Or.inr ih

theorem TextCleaner.cleanText_wsNormal (text : List Char) : wsNormal (cleanText text) = true := by
  unfold cleanText
  by_cases h : text = []
  · simp [h, wsNormal, noDoubleWs, headNotWs, lastNotWs]
  · simp only [h, if_false]
    exact normalizeWs_wsNormal _

theorem ExtractContent.cleanTextExtract_wsNormal (text : List Char) : wsNormal (cleanText text) = true := by
  unfold cleanText
  by_cases h : text = []
  · simp [h, wsNormal, noDoubleWs, headNotWs, lastNotWs]
  · simp only [h, if_false]
    exact normalizeWs_wsNormal _

/-! ### Generic first-hit lemmas over `List.range` -/

theorem mem_range'_bounds : ∀ {len s j : Nat}, j ∈ List.range' s len → s ≤ j ∧ j < s + len := by
  intro len
  induction len with
  | zero => intro s j h; simp [List.range'] at h
  | succ n ih =>
    intro s j h
    rw [List.range'_succ] at h
    rcases List.mem_cons.mp h with h | h
    · omega
    · have := ih h
      omega

theorem findRange'_eq_some {p : Nat → Bool} :
    ∀ (len s i : Nat), s ≤ i → i < s + len →
      (∀ j, s ≤ j → j < i → p j = false) → p i = true →
      (List.range' s len).find? p = some i
  | 0, _, i, _, h2, _, _ => absurd h2 (by omega)
  | len + 1, s, i, h1, h2, hlt, hp => by
    rw [List.range'_succ, List.find?_cons]
    rcases Nat.eq_or_lt_of_le h1 with hsi | hsi
    · subst hsi
      simp [hp]
    · have hps : p s = false := hlt s le_rfl hsi
      simp only [hps]
      exact findRange'_eq_some len (s + 1) i hsi (by omega)
        (fun j hj1 hj2 => hlt j (by omega) hj2) hp

theorem findRange'_some_first {p : Nat → Bool} :
    ∀ (len s i : Nat), (List.range' s len).find? p = some i →
      s ≤ i ∧ i < s + len ∧ p i = true ∧ ∀ j, s ≤ j → j < i → p j = false
  | 0, s, i, h => by simp [List.range'] at h
  | len + 1, s, i, h => by
    rw [List.range'_succ, List.find?_cons] at h
    cases hps : p s with
    | true =>
      rw [hps] at h
      have hsi : s = i := by
        simpa using h
      subst hsi
      exact ⟨le_rfl, by omega, hps, fun j hj1 hj2 => absurd hj2 (by omega)⟩
    | false =>
      rw [hps] at h
      simp only [] at h
      have ih := findRange'_some_first len (s + 1) i h
      refine ⟨by omega, by omega, ih.2.2.1, ?_⟩
      intro j hj1 hj2
      rcases Nat.eq_or_lt_of_le hj1 with hj | hj
      · subst hj; exact hps
      · exact ih.2.2.2 j hj hj2

theorem filterRange'_split {p q : Nat → Bool} :
    ∀ (len s i : Nat), s ≤ i → i < s + len →
      (∀ j, s ≤ j → j < i → p j = false) → p i = true →
      (∀ j, i < j → p j = q j) → (∀ j, j ≤ i → q j = false) →
      (List.range' s len).filter p = i :: (List.range' s len).filter q
  | 0, _, i, _, h2, _, _, _, _ => absurd h2 (by omega)
  | len + 1, s, i, h1, h2, hlt, hp, hag, hq => by
    rw [List.range'_succ, List.filter_cons, List.filter_cons]
    rcases Nat.eq_or_lt_of_le h1 with hsi | hsi
    · subst hsi
      rw [if_pos (by simp [hp]), if_neg (by simp [hq s le_rfl])]
      congr 1
      apply List.filter_congr
      intro j hj
      exact hag j (by have := mem_range'_bounds hj; omega)
    · have hps : p s = false := hlt s le_rfl hsi
      have hqs : q s = false := hq s (by omega)
      rw [if_neg (by simp [hps]), if_neg (by simp [hqs])]
      exact filterRange'_split len (s + 1) i hsi (by omega)
        (fun j hj1 hj2 => hlt j (by omega) hj2) hp hag hq

theorem findRange_eq_some {p : Nat → Bool} {n i : Nat} (h2 : i < n)
    (hlt : ∀ j, j < i → p j = false) (hp : p i = true) :
    (List.range n).find? p = some i := by
  rw [List.range_eq_range']
  exact findRange'_eq_some n 0 i (Nat.zero_le _) (by omega)
    (fun j _ hj => hlt j hj) hp

theorem findRange_some_first {p : Nat → Bool} {n i : Nat}
    (h : (List.range n).find? p = some i) :
    i < n ∧ p i = true ∧ ∀ j, j < i → p j = false := by
  rw [List.range_eq_range'] at h
  have := findRange'_some_first n 0 i h
  exact ⟨by omega, this.2.2.1, fun j hj => this.2.2.2 j (Nat.zero_le _) hj⟩

theorem filterRange_split {p q : Nat → Bool} {n i : Nat} (h2 : i < n)
    (hlt : ∀ j, j < i → p j = false) (hp : p i = true)
    (hag : ∀ j, i < j → p j = q j) (hq : ∀ j, j ≤ i → q j = false) :
    (List.range n).filter p = i :: (List.range n).filter q := by
  rw [List.range_eq_range']
  exact filterRange'_split n 0 i (Nat.zero_le _) (by omega)
    (fun j _ hj => hlt j hj) hp hag hq

/-! ### Claim C2 -/

/-- C2 (counterexample): `cleanText` does not remove every HTML tag or every
paired markdown delimiter.  Decoding `&lt;b&gt;` re-introduces the tag `<b>`
in both implementations (tag removal runs before entity decoding), and a
star pair whose content spans a newline survives as `* a*` (`.` in the
markdown regexes does not match a line terminator, while the later `\s+`
normalization turns the newline into a plain space, yielding a `*x*`-shaped
substring `'*', ' ', 'a', '*'`). -/
theorem C2_counterexample :
    hasTag (TextCleaner.cleanText ['&', 'l', 't', ';', 'b', '&', 'g', 't', ';']) = true ∧
    hasTag (ExtractContent.cleanText ['&', 'l', 't', ';', 'b', '&', 'g', 't', ';']) = true ∧
    TextCleaner.cleanText ['*', '\n', 'a', '*'] = '*' :: ([' ', 'a'] ++ ['*']) ∧
    ExtractContent.cleanText ['*', '\n', 'a', '*'] = '*' :: ([' ', 'a'] ++ ['*']) :=
  ⟨by decide, by decide, by decide, by decide⟩

/-- C2 (amended): on every input, both `cleanText` implementations return a
whitespace-normal string — no run of two or more whitespace characters and no
leading or trailing whitespace — and the tag-removal pass itself leaves no
substring matching `<[^>]*>` (a tag in the final output can only be
re-introduced by the later entity decoding, and a markdown delimiter pair
survives only when its content spans a line terminator). -/
theorem C2_amended (text : List Char) :
    wsNormal (TextCleaner.cleanText text) = true ∧
    wsNormal (ExtractContent.cleanText text) = true ∧
    hasTag (stripTags text) = false :=
  ⟨TextCleaner.cleanText_wsNormal text, ExtractContent.cleanTextExtract_wsNormal text,
    stripTags_hasTag text⟩

/-! ### Claim C8 -/

theorem jsTrim_eq_nil_of_all_ws {term : List Char}
    (h : ∀ c ∈ term, isJsWs c = true) : jsTrim term = [] := by
  have h1 : term.dropWhile isJsWs = [] := List.dropWhile_eq_nil_iff.mpr h
  unfold jsTrim trimLeftWs
  rw [h1]
  rfl

/-- C8: for every content array and options, a search term that is empty or
consists only of whitespace makes `searchBuilderContent` return the empty
array (the `!searchTerm || searchTerm.trim() === ''` guard). -/
theorem C8_empty_search_term (content : List Search.BuilderPageContent)
    (term : List Char) (options : Search.SearchOptions)
    (h : ∀ c ∈ term, isJsWs c = true) :
    Search.searchBuilderContent content term options = some [] := by
  have hg : term = [] ∨ jsTrim term = [] := Or.inr (jsTrim_eq_nil_of_all_ws h)
  unfold Search.searchBuilderContent Search.searchRaw
  rw [if_pos hg]
  simp

/-- C8 (witness): a concrete whitespace-only term. -/
theorem C8_witness :
    Search.searchBuilderContent [⟨"t", "u", [['a']]⟩] [' ', '\t']
      Search.emptyOptions = some [] :=
  C8_empty_search_term _ _ _ (by decide)

/-! ### Claim C3 -/

/-- C3: whenever `searchBuilderContent` returns (it diverges only on search
terms whose cleaned form is empty), the returned array contains only results
whose `matchScore` is at least `minScore` (default `0.1`), and it is sorted
in non-increasing `matchScore` order (the comparator
`(a, b) => b.matchScore - a.matchScore`). -/
theorem C3_filtered_and_sorted (content : List Search.BuilderPageContent)
    (term : List Char) (options : Search.SearchOptions)
    (rs : List Search.SearchResult)
    (h : Search.searchBuilderContent content term options = some rs) :
    (∀ r ∈ rs, options.minScore.getD (1 / 10) ≤ r.matchScore) ∧
      rs.Pairwise (fun a b => b.matchScore ≤ a.matchScore) := by
  cases hr : Search.searchRaw content term options with
  | none =>
    unfold Search.searchBuilderContent at h
    rw [hr] at h
    cases h
  | some results =>
    unfold Search.searchBuilderContent at h
    rw [hr] at h
    have hrs : rs = (results.filter
        (fun r => decide (options.minScore.getD (1 / 10) ≤ r.matchScore))).mergeSort
        (fun a b => decide (b.matchScore ≤ a.matchScore)) :=
      (Option.some.inj h).symm
    subst hrs
    constructor
    · intro r hrm
      have h1 := List.mem_mergeSort.mp hrm
      have h2 := (List.mem_filter.mp h1).2
      simpa using h2
    · have htrans : ∀ (a b c : Search.SearchResult),
          (fun a b : Search.SearchResult => decide (b.matchScore ≤ a.matchScore)) a b →
          (fun a b : Search.SearchResult => decide (b.matchScore ≤ a.matchScore)) b c →
          (fun a b : Search.SearchResult => decide (b.matchScore ≤ a.matchScore)) a c := by
        intro a b c hab hbc
        simp only [decide_eq_true_eq] at *
        exact le_trans hbc hab
      have htotal : ∀ (a b : Search.SearchResult),
          ((fun a b : Search.SearchResult => decide (b.matchScore ≤ a.matchScore)) a b ||
           (fun a b : Search.SearchResult => decide (b.matchScore ≤ a.matchScore)) b a) := by
        intro a b
        simp only [Bool.or_eq_true, decide_eq_true_eq]
        exact le_total b.matchScore a.matchScore
      have hs := List.sorted_mergeSort htrans htotal
        (results.filter (fun r => decide (options.minScore.getD (1 / 10) ≤ r.matchScore)))
      exact hs.imp (by intro a b hab; simpa using hab)

/-- C3 (witness): a single-page, single-match search. -/
theorem C3_witness :
    (∀ r ∈ [(⟨"t", "u", ['a'], Search.calculateFinalScore (0 + 1) 1, ['a'], 0⟩ :
        Search.SearchResult)],
      Search.emptyOptions.minScore.getD (1 / 10) ≤ r.matchScore) ∧
    List.Pairwise (fun a b : Search.SearchResult => b.matchScore ≤ a.matchScore)
      [⟨"t", "u", ['a'], Search.calculateFinalScore (0 + 1) 1, ['a'], 0⟩] := by
  apply C3_filtered_and_sorted [⟨"t", "u", [['a']]⟩] ['a'] Search.emptyOptions
  have hraw : Search.searchRaw [⟨"t", "u", [['a']]⟩] ['a'] Search.emptyOptions =
      some [⟨"t", "u", ['a'], Search.calculateFinalScore (0 + 1) 1, ['a'], 0⟩] := rfl
  unfold Search.searchBuilderContent
  rw [hraw]
  show some (([(⟨"t", "u", ['a'], Search.calculateFinalScore (0 + 1) 1, ['a'], 0⟩ :
      Search.SearchResult)].filter
      (fun r => decide (Search.emptyOptions.minScore.getD (1 / 10) ≤ r.matchScore))).mergeSort
        (fun a b => decide (b.matchScore ≤ a.matchScore))) = _
  rw [List.filter_cons, if_pos ?hc, List.filter_nil, List.mergeSort_singleton]
  case hc =>
    simp only [Search.emptyOptions, Option.getD, Search.calculateFinalScore,
      decide_eq_true_eq]
    norm_num

/-! ### Claim C5 -/

theorem pushLoop_getElem? (t u : String) (ct : List Char) (w : ℚ) (pl cw : Nat) :
    ∀ (positions : List Nat) (acc : ℚ) (k : Nat) (r : Search.SearchResult),
      (Search.pushLoop t u ct w pl cw positions acc)[k]? = some r →
      r.matchScore = Search.calculateFinalScore (acc + w * ((k : ℚ) + 1)) ct.length
  | [], _, k, r, h => by simp [Search.pushLoop] at h
  | pos :: rest, acc, 0, r, h => by
    simp only [Search.pushLoop, List.getElem?_cons_zero] at h
    cases h
    show Search.calculateFinalScore (acc + w) ct.length = _
    congr 1
    push_cast
    ring
  | pos :: rest, acc, k + 1, r, h => by
    simp only [Search.pushLoop, List.getElem?_cons_succ] at h
    have := pushLoop_getElem? t u ct w pl cw rest (acc + w) k r h
    rw [this]
    congr 1
    push_cast
    ring

theorem searchText_getElem_score (title url : String) (cs ww : Bool) (cw : Nat)
    (pat text : List Char) (k : Nat) (r : Search.SearchResult)
    (h : (Search.searchText title url cs ww cw pat text)[k]? = some r) :
    r.matchScore = Search.calculateFinalScore
      ((if ww then 2 else 1) * ((k : ℚ) + 1)) (TextCleaner.cleanText text).length := by
  cases ww with
  | true =>
    have h2 : (Search.pushLoop title url (TextCleaner.cleanText text) 2 pat.length cw
        (Search.collectWW pat (TextCleaner.cleanText text) cs) 0)[k]? = some r := h
    have := pushLoop_getElem? title url (TextCleaner.cleanText text) 2 pat.length cw
      (Search.collectWW pat (TextCleaner.cleanText text) cs) 0 k r h2
    rw [this]
    show Search.calculateFinalScore (0 + 2 * ((k : ℚ) + 1)) _ =
      Search.calculateFinalScore ((2 : ℚ) * ((k : ℚ) + 1)) _
    congr 1
    ring
  | false =>
    have h2 : (Search.pushLoop title url (TextCleaner.cleanText text) 1 pat.length cw
        (Search.collectSub pat (if cs then TextCleaner.cleanText text
          else jsToLower (TextCleaner.cleanText text))) 0)[k]? = some r := h
    have := pushLoop_getElem? title url (TextCleaner.cleanText text) 1 pat.length cw
      (Search.collectSub pat (if cs then TextCleaner.cleanText text
        else jsToLower (TextCleaner.cleanText text))) 0 k r h2
    rw [this]
    show Search.calculateFinalScore (0 + 1 * ((k : ℚ) + 1)) _ =
      Search.calculateFinalScore ((1 : ℚ) * ((k : ℚ) + 1)) _
    congr 1
    ring

/-- C5: within one page text of cleaned length `L`, the `i`-th match found
(1-based, scan order) is pushed with
`matchScore = w * i * (50 / max(L, 50))` where `w = 2` in whole-word mode and
`w = 1` in substring mode; in particular the next match in the same text
receives a strictly higher score. -/
theorem C5_score_heuristic (title url : String) (cs ww : Bool) (cw : Nat)
    (pat text : List Char) (k : Nat) (r : Search.SearchResult)
    (h : (Search.searchText title url cs ww cw pat text)[k]? = some r) :
    r.matchScore = (if ww then 2 else 1) * ((k : ℚ) + 1) *
        (50 / ((Nat.max (TextCleaner.cleanText text).length 50 : Nat) : ℚ)) ∧
      ∀ r2 : Search.SearchResult,
        (Search.searchText title url cs ww cw pat text)[k + 1]? = some r2 →
        r.matchScore < r2.matchScore := by
  have hL : (0 : ℚ) < ((Nat.max (TextCleaner.cleanText text).length 50 : Nat) : ℚ) := by
    have h50 : (50 : Nat) ≤ Nat.max (TextCleaner.cleanText text).length 50 :=
      Nat.le_max_right _ _
    have : (50 : ℚ) ≤ ((Nat.max (TextCleaner.cleanText text).length 50 : Nat) : ℚ) := by
      exact_mod_cast h50
    linarith
  have hfpos : 0 < 50 / ((Nat.max (TextCleaner.cleanText text).length 50 : Nat) : ℚ) :=
    div_pos (by norm_num) hL
  have hwpos : (0 : ℚ) < if ww then 2 else 1 := by
    cases ww <;> norm_num
  have hsc := searchText_getElem_score title url cs ww cw pat text k r h
  rw [Search.calculateFinalScore] at hsc
  refine ⟨hsc, ?_⟩
  intro r2 h2
  have hsc2 := searchText_getElem_score title url cs ww cw pat text (k + 1) r2 h2
  rw [Search.calculateFinalScore] at hsc2
  have hk : (((k + 1 : Nat)) : ℚ) = (k : ℚ) + 1 := by push_cast; ring
  rw [hk] at hsc2
  rw [hsc, hsc2]
  have hbase : (if ww then (2 : ℚ) else 1) * ((k : ℚ) + 1) <
      (if ww then (2 : ℚ) else 1) * ((k : ℚ) + 1 + 1) := by
    apply mul_lt_mul_of_pos_left _ hwpos
    linarith
  exact mul_lt_mul_of_pos_right hbase hfpos

/-- C5 (witness): the first of the two overlapping matches of `'a'` in
`"aa"` scores `1 * 1 * (50 / max(2, 50))` and the second strictly more. -/
theorem C5_witness :
    ((⟨"t", "u", ['a', 'a'], Search.calculateFinalScore (0 + 1) 2, ['a', 'a'], 0⟩ :
        Search.SearchResult).matchScore =
      (if false then 2 else 1) * ((0 : ℚ) + 1) *
        (50 / ((Nat.max (TextCleaner.cleanText ['a', 'a']).length 50 : Nat) : ℚ)) ∧
      ∀ r2 : Search.SearchResult,
        (Search.searchText "t" "u" false false 5 ['a'] ['a', 'a'])[0 + 1]? = some r2 →
        (⟨"t", "u", ['a', 'a'], Search.calculateFinalScore (0 + 1) 2, ['a', 'a'], 0⟩ :
          Search.SearchResult).matchScore < r2.matchScore) :=
  C5_score_heuristic "t" "u" false false 5 ['a'] ['a', 'a'] 0
    ⟨"t", "u", ['a', 'a'], Search.calculateFinalScore (0 + 1) 2, ['a', 'a'], 0⟩ rfl

/-! ### Claim C1 -/

theorem flatMap_congr_fn {α β : Type} {l : List α} {f g : α → List β}
    (h : ∀ a ∈ l, f a = g a) : l.flatMap f = l.flatMap g := by
  induction l with
  | nil => rfl
  | cons x xs ih =>
    simp only [List.flatMap_cons]
    rw [h x (by simp), ih (fun a ha => h a (by simp [ha]))]

theorem isPrefixOf_nil_eq_false {pat : List Char} (h : pat ≠ []) :
    pat.isPrefixOf ([] : List Char) = false := by
  cases pat with
  | nil => exact absurd rfl h
  | cons c rest => rfl

theorem collectSubLoop_eq (pat text : List Char) (hpat : pat ≠ []) :
    ∀ (fuel start : Nat), text.length + 1 ≤ fuel + start →
      Search.collectSubLoop pat text fuel (start : Int) =
        (List.range text.length).filter
          (fun i => decide (start ≤ i) && pat.isPrefixOf (text.drop i))
  | 0, start, hfs => by
    symm
    apply List.filter_eq_nil_iff.mpr
    intro i hi
    have : i < text.length := List.mem_range.mp hi
    simp only [Bool.and_eq_true, decide_eq_true_eq, not_and]
    intro hsi
    omega
  | fuel + 1, start, hfs => by
    unfold Search.collectSubLoop Search.jsIndexOf
    cases hfind : (List.range (text.length + 1)).find?
        (fun i => decide ((start : Int).toNat ≤ i) && pat.isPrefixOf (text.drop i)) with
    | none =>
      simp only [hfind, hpat, if_false, if_pos rfl]
      symm
      apply List.filter_eq_nil_iff.mpr
      intro i hi
      have hi2 : i ∈ List.range (text.length + 1) :=
        List.mem_range.mpr (by have := List.mem_range.mp hi; omega)
      have := List.find?_eq_none.mp hfind i hi2
      simpa using this
    | some i =>
      have hfirst := findRange_some_first hfind
      have hpi : start ≤ i ∧ pat.isPrefixOf (text.drop i) = true := by
        have := hfirst.2.1
        simp only [Bool.and_eq_true, decide_eq_true_eq, Int.toNat_natCast] at this
        exact this
      have hilt : i < text.length := by
        rcases Nat.lt_or_ge i text.length with h | h
        · exact h
        · exfalso
          have hdrop : text.drop i = [] := List.drop_eq_nil_of_le h
          rw [hdrop, isPrefixOf_nil_eq_false hpat] at hpi
          exact absurd hpi.2 (by simp)
      show (if ((i : Int)) = -1 then [] else ((i : Int)).toNat ::
        Search.collectSubLoop pat text fuel ((i : Int) + 1)) = _
      rw [if_neg (by omega)]
      have hcast : ((i : Int)).toNat = i := Int.toNat_natCast i
      rw [hcast]
      have hnext : ((i : Int)) + 1 = (((i + 1 : Nat)) : Int) := by push_cast; ring
      rw [hnext]
      rw [collectSubLoop_eq pat text hpat fuel (i + 1) (by omega)]
      symm
      apply filterRange_split hilt
      · intro j hj
        have := hfirst.2.2 j hj
        simpa [Int.toNat_natCast] using this
      · simp only [Bool.and_eq_true, decide_eq_true_eq]
        exact hpi
      · intro j hj
        have h1 : start ≤ j := by omega
        have h2 : i + 1 ≤ j := by omega
        simp [h1, h2]
      · intro j hj
        have : ¬ (i + 1 ≤ j) := by omega
        simp [this]

theorem collectSub_eq_occurrences (pat text : List Char) (hpat : pat ≠ []) :
    Search.collectSub pat text = Search.occurrencesSpec pat text := by
  unfold Search.collectSub Search.occurrencesSpec
  have h := collectSubLoop_eq pat text hpat (text.length + 1) 0 (by omega)
  rw [show ((0 : Nat) : Int) = (0 : Int) from rfl] at h
  rw [h]
  apply List.filter_congr
  intro i _
  simp

theorem pushLoop_eq_enumFrom (t u : String) (ct : List Char) (w : ℚ) (pl cw : Nat) :
    ∀ (positions : List Nat) (n : Nat),
      Search.pushLoop t u ct w pl cw positions (w * (n : ℚ)) =
        (positions.enumFrom (n + 1)).map (fun kp =>
          { pageTitle := t, pageUrl := u, text := ct,
            matchScore := Search.calculateFinalScore (w * (kp.1 : ℚ)) ct.length,
            excerpt := Search.generateExcerpt ct kp.2 pl cw,
            matchPosition := kp.2 })
  | [], _ => rfl
  | pos :: rest, n => by
    show _ :: Search.pushLoop t u ct w pl cw rest (w * (n : ℚ) + w) = _ :: _
    have hw : w * (n : ℚ) + w = w * (((n + 1 : Nat)) : ℚ) := by push_cast; ring
    rw [hw, pushLoop_eq_enumFrom t u ct w pl cw rest (n + 1)]

theorem searchText_substring_eq_spec (title url : String) (cs : Bool) (cw : Nat)
    (pat text : List Char) (hpat : pat ≠ []) :
    Search.searchText title url cs false cw pat text =
      Search.substringResultsSpec title url cs cw pat text := by
  show Search.pushLoop title url (TextCleaner.cleanText text) 1 pat.length cw
      (Search.collectSub pat (if cs then TextCleaner.cleanText text
        else jsToLower (TextCleaner.cleanText text))) 0 = _
  rw [collectSub_eq_occurrences pat _ hpat]
  rw [show (0 : ℚ) = 1 * ((0 : Nat) : ℚ) from by norm_num]
  rw [pushLoop_eq_enumFrom title url (TextCleaner.cleanText text) 1 pat.length cw _ 0]
  unfold Search.substringResultsSpec
  apply List.map_congr_left
  intro kp _
  have : Search.calculateFinalScore (1 * (kp.1 : ℚ))
      (TextCleaner.cleanText text).length =
      (kp.1 : ℚ) * (50 / ((Nat.max (TextCleaner.cleanText text).length 50 : Nat) : ℚ)) := by
    unfold Search.calculateFinalScore
    ring
  rw [this]

/-- C1 (counterexample): the substring scan is not total.  The search term
`"<a>"` is nonempty after trimming, but it cleans to the empty string, and
the `indexOf` loop with an empty needle never terminates (each
`indexOf(term, position + 1)` call returns `min(position + 1, length)` and
the position stops advancing), so `searchBuilderContent` produces nothing at
all — modeled by `none` — even though the empty normalized term occurs at
index 0 of the page text, where the claim demands a result. -/
theorem C1_counterexample :
    Search.searchRaw [⟨"t", "u", [['x']]⟩] ['<', 'a', '>'] Search.emptyOptions = none ∧
    Search.searchBuilderContent [⟨"t", "u", [['x']]⟩] ['<', 'a', '>']
      Search.emptyOptions = none ∧
    (jsTrim ['<', 'a', '>']).isEmpty = false ∧
    Search.occurrencesSpec (jsToLower (TextCleaner.cleanText ['<', 'a', '>']))
      (jsToLower (TextCleaner.cleanText ['x'])) = [0] :=
  ⟨rfl, rfl, by decide, by decide⟩

/-- C1 (amended): for every content array and options with `wholeWord`
false, and every search term that is nonempty, nonempty after trimming, and
whose cleaned, normalized form is also nonempty, the raw result list (before
the `minScore` filter) is exactly one result per starting index at which the
normalized search term occurs in each page text's normalized cleaned form —
overlapping occurrences included, in scan order, `matchPosition` equal to
the starting index (`substringResultsSpec` maps the declarative occurrence
list `occurrencesSpec`, a filter of all starting indices, to results). -/
theorem C1_substring_scan (content : List Search.BuilderPageContent)
    (term : List Char) (options : Search.SearchOptions)
    (hterm : ¬ term = []) (htrim : ¬ jsTrim term = [])
    (hww : options.wholeWord.getD false = false)
    (hpat : ¬ (if options.caseSensitive.getD false then TextCleaner.cleanText term
        else jsToLower (TextCleaner.cleanText term)) = []) :
    Search.searchRaw content term options =
      some (content.flatMap (fun page => page.content.flatMap (fun text =>
        Search.substringResultsSpec page.title page.url
          (options.caseSensitive.getD false) (options.contextWords.getD 5)
          (if options.caseSensitive.getD false then TextCleaner.cleanText term
            else jsToLower (TextCleaner.cleanText term)) text))) := by
  unfold Search.searchRaw
  rw [if_neg (show ¬ (term = [] ∨ jsTrim term = []) from by
    push_neg
    exact ⟨hterm, htrim⟩)]
  simp only [hww, Bool.false_eq_true, if_false, if_neg hpat]
  congr 1
  apply flatMap_congr_fn
  intro page _
  apply flatMap_congr_fn
  intro text _
  exact searchText_substring_eq_spec page.title page.url _ _ _ text hpat

/-- C1 (witness): searching `"a"` in the single text `"aba"`. -/
theorem C1_witness :
    Search.searchRaw [⟨"t", "u", [['a', 'b', 'a']]⟩] ['a'] Search.emptyOptions =
      some (([⟨"t", "u", [['a', 'b', 'a']]⟩] : List Search.BuilderPageContent).flatMap
        (fun page => page.content.flatMap (fun text =>
          Search.substringResultsSpec page.title page.url
            (Search.emptyOptions.caseSensitive.getD false)
            (Search.emptyOptions.contextWords.getD 5)
            (if Search.emptyOptions.caseSensitive.getD false then
              TextCleaner.cleanText ['a']
              else jsToLower (TextCleaner.cleanText ['a'])) text))) :=
  C1_substring_scan _ _ _ (by decide) (by decide) rfl (by decide)

/-! ### Claim C4 -/

theorem collectWWLoop_mem (pat text : List Char) (cs : Bool) :
    ∀ (fuel start i : Nat), i ∈ Search.collectWWLoop pat text cs fuel start →
      Search.wwMatchAt pat text cs i = true
  | 0, _, _, h => by simp [Search.collectWWLoop] at h
  | fuel + 1, start, i, h => by
    unfold Search.collectWWLoop at h
    cases hfind : Search.wwFindFrom pat text cs start with
    | none => rw [hfind] at h; simp at h
    | some j =>
      rw [hfind] at h
      rcases List.mem_cons.mp h with h | h
      · subst h
        unfold Search.wwFindFrom at hfind
        have := List.find?_some hfind
        simp only [Bool.and_eq_true] at this
        exact this.2
      · exact collectWWLoop_mem pat text cs fuel (j + pat.length) i h

theorem pushLoop_mem (t u : String) (ct : List Char) (w : ℚ) (pl cw : Nat) :
    ∀ (positions : List Nat) (acc : ℚ) (r : Search.SearchResult),
      r ∈ Search.pushLoop t u ct w pl cw positions acc →
      r.text = ct ∧ r.matchPosition ∈ positions
  | [], _, r, h => by simp [Search.pushLoop] at h
  | pos :: rest, acc, r, h => by
    rcases List.mem_cons.mp h with h | h
    · subst h
      exact ⟨rfl, by simp⟩
    · have := pushLoop_mem t u ct w pl cw rest (acc + w) r h
      exact ⟨this.1, by simp [this.2]⟩

/-- C4 (counterexample): in whole-word mode the term `"!a"` matches inside
`"b!a"` at index 1 although the character before the occurrence, `'b'`, is a
word character: JS `\b` is an exclusive-or of the word-character status of
the two adjacent characters, not the "both sides absent-or-non-word"
condition of the claim (here `'b'` is a word character and `'!'` is not, so
`\b` holds at the match start). -/
theorem C4_counterexample :
    Search.searchBuilderContent [⟨"t", "u", [['b', '!', 'a']]⟩] ['!', 'a']
      ⟨none, some true, none, none⟩ =
      some [⟨"t", "u", ['b', '!', 'a'], Search.calculateFinalScore (0 + 2) 3,
        ['b', '!', 'a'], 1⟩] ∧
    isWordChar 'b' = true := by
  constructor
  · have hraw : Search.searchRaw [⟨"t", "u", [['b', '!', 'a']]⟩] ['!', 'a']
        ⟨none, some true, none, none⟩ =
        some [⟨"t", "u", ['b', '!', 'a'], Search.calculateFinalScore (0 + 2) 3,
          ['b', '!', 'a'], 1⟩] := rfl
    unfold Search.searchBuilderContent
    rw [hraw]
    show some (([(⟨"t", "u", ['b', '!', 'a'], Search.calculateFinalScore (0 + 2) 3,
        ['b', '!', 'a'], 1⟩ : Search.SearchResult)].filter
        (fun r => decide ((⟨none, some true, none, none⟩ :
          Search.SearchOptions).minScore.getD (1 / 10) ≤ r.matchScore))).mergeSort
          (fun a b => decide (b.matchScore ≤ a.matchScore))) = _
    rw [List.filter_cons, if_pos ?hc, List.filter_nil, List.mergeSort_singleton]
    case hc =>
      simp only [Option.getD, Search.calculateFinalScore, decide_eq_true_eq,
        show Nat.max 3 50 = 50 from rfl]
      norm_num
  · decide

/-- C4 (amended): with `wholeWord` true, every returned result is an
occurrence of the (escaped, normalized) search term in the cleaned text that
is delimited by `\b` word boundaries in the regex sense: at each end of the
occurrence the word-character status of the adjacent text character differs
from that of the character just inside (absent characters count as
non-word), and the literal characters match up to ASCII case folding unless
`caseSensitive` is true. -/
theorem C4_whole_word (content : List Search.BuilderPageContent)
    (term : List Char) (options : Search.SearchOptions)
    (rs : List Search.SearchResult)
    (hww : options.wholeWord.getD false = true)
    (h : Search.searchBuilderContent content term options = some rs) :
    ∀ r ∈ rs,
      Search.boundaryAt r.text r.matchPosition = true ∧
      Search.litMatchAt
        (if options.caseSensitive.getD false then TextCleaner.cleanText term
          else jsToLower (TextCleaner.cleanText term)) r.text
        (options.caseSensitive.getD false) r.matchPosition = true ∧
      Search.boundaryAt r.text (r.matchPosition +
        (if options.caseSensitive.getD false then TextCleaner.cleanText term
          else jsToLower (TextCleaner.cleanText term)).length) = true := by
  intro r hr
  cases hraw : Search.searchRaw content term options with
  | none =>
    unfold Search.searchBuilderContent at h
    rw [hraw] at h
    cases h
  | some results =>
    unfold Search.searchBuilderContent at h
    rw [hraw] at h
    have hrs : rs = (results.filter
        (fun r => decide (options.minScore.getD (1 / 10) ≤ r.matchScore))).mergeSort
        (fun a b => decide (b.matchScore ≤ a.matchScore)) :=
      (Option.some.inj h).symm
    subst hrs
    have hr2 : r ∈ results := (List.mem_filter.mp (List.mem_mergeSort.mp hr)).1
    unfold Search.searchRaw at hraw
    by_cases hguard : term = [] ∨ jsTrim term = []
    · rw [if_pos hguard] at hraw
      cases hraw
      simp at hr2
    · rw [if_neg hguard] at hraw
      by_cases hpat : (if options.caseSensitive.getD false then TextCleaner.cleanText term
          else jsToLower (TextCleaner.cleanText term)) = []
      · simp only [hww, if_true, if_pos hpat] at hraw
        split at hraw
        · cases hraw
        · cases hraw
          simp at hr2
      · simp only [hww, if_true, if_neg hpat] at hraw
        have hres := Option.some.inj hraw
        rw [← hres] at hr2
        rcases List.mem_flatMap.mp hr2 with ⟨page, _, hrp⟩
        rcases List.mem_flatMap.mp hrp with ⟨text, _, hrt⟩
        have hrt2 : r ∈ Search.pushLoop page.title page.url (TextCleaner.cleanText text) 2
            (if options.caseSensitive.getD false then TextCleaner.cleanText term
              else jsToLower (TextCleaner.cleanText term)).length
            (options.contextWords.getD 5)
            (Search.collectWW
              (if options.caseSensitive.getD false then TextCleaner.cleanText term
                else jsToLower (TextCleaner.cleanText term))
              (TextCleaner.cleanText text) (options.caseSensitive.getD false)) 0 := hrt
        have hm := pushLoop_mem _ _ _ _ _ _ _ _ _ hrt2
        have hpos := collectWWLoop_mem _ _ _ _ _ _ hm.2
        rw [hm.1]
        simp only [Search.wwMatchAt, Bool.and_eq_true] at hpos
        exact ⟨hpos.1.1, hpos.1.2, hpos.2⟩

/-- C4 (witness): the `"b!a"`/`"!a"` whole-word search satisfies the
`\b`-boundary characterization at its single result. -/
theorem C4_witness :
    ((⟨none, some true, none, none⟩ : Search.SearchOptions).wholeWord.getD false = true) ∧
    (Search.boundaryAt ['b', '!', 'a'] 1 = true ∧
      Search.litMatchAt
        (if (⟨none, some true, none, none⟩ :
            Search.SearchOptions).caseSensitive.getD false then
          TextCleaner.cleanText ['!', 'a']
          else jsToLower (TextCleaner.cleanText ['!', 'a'])) ['b', '!', 'a']
        ((⟨none, some true, none, none⟩ :
          Search.SearchOptions).caseSensitive.getD false) 1 = true ∧
      Search.boundaryAt ['b', '!', 'a'] (1 +
        (if (⟨none, some true, none, none⟩ :
            Search.SearchOptions).caseSensitive.getD false then
          TextCleaner.cleanText ['!', 'a']
          else jsToLower (TextCleaner.cleanText ['!', 'a'])).length) = true) := by
  constructor
  · rfl
  · have hsearch : Search.searchBuilderContent [⟨"t", "u", [['b', '!', 'a']]⟩] ['!', 'a']
        ⟨none, some true, none, none⟩ =
        some [⟨"t", "u", ['b', '!', 'a'], Search.calculateFinalScore (0 + 2) 3,
          ['b', '!', 'a'], 1⟩] := by
      have hraw : Search.searchRaw [⟨"t", "u", [['b', '!', 'a']]⟩] ['!', 'a']
          ⟨none, some true, none, none⟩ =
          some [⟨"t", "u", ['b', '!', 'a'], Search.calculateFinalScore (0 + 2) 3,
            ['b', '!', 'a'], 1⟩] := rfl
      unfold Search.searchBuilderContent
      rw [hraw]
      show some (([(⟨"t", "u", ['b', '!', 'a'], Search.calculateFinalScore (0 + 2) 3,
          ['b', '!', 'a'], 1⟩ : Search.SearchResult)].filter
          (fun r => decide ((⟨none, some true, none, none⟩ :
            Search.SearchOptions).minScore.getD (1 / 10) ≤ r.matchScore))).mergeSort
            (fun a b => decide (b.matchScore ≤ a.matchScore))) = _
      rw [List.filter_cons, if_pos ?hc, List.filter_nil, List.mergeSort_singleton]
      case hc =>
        simp only [Option.getD, Search.calculateFinalScore, decide_eq_true_eq,
          show Nat.max 3 50 = 50 from rfl]
        norm_num
    exact C4_whole_word [⟨"t", "u", [['b', '!', 'a']]⟩] ['!', 'a']
      ⟨none, some true, none, none⟩ _ rfl hsearch
      (⟨"t", "u", ['b', '!', 'a'], Search.calculateFinalScore (0 + 2) 3,
        ['b', '!', 'a'], 1⟩ : Search.SearchResult)
      (List.mem_singleton.mpr rfl)

/-! ### Claim C6 -/

theorem markerTexts_eq_markerTextOpt (whole : JsonVal) (locale : List Char) :
    ExtractContent.markerTexts whole locale =
      (ExtractContent.markerTextOpt whole locale).toList := by
  unfold ExtractContent.markerTexts ExtractContent.markerTextOpt
    ExtractContent.localizedValue
  cases hl : jsLookup whole locale with
  | none =>
    simp only [truthy, Bool.false_eq_true, if_false]
    cases hd : jsLookup whole "Default".data with
    | none => rfl
    | some d =>
      by_cases htd : truthyV d = true
      · simp [htd]
      · simp only [Bool.not_eq_true] at htd
        simp [htd]
  | some v =>
    by_cases htv : truthyV v = true
    · simp [truthy, htv]
    · simp only [Bool.not_eq_true] at htv
      simp only [truthy, htv, Bool.false_eq_true, if_false]
      cases hd : jsLookup whole "Default".data with
      | none => rfl
      | some d =>
        by_cases htd : truthyV d = true
        · simp [htd]
        · simp only [Bool.not_eq_true] at htd
          simp [htd]

theorem extractEntries_eq_flatMap (locale : List Char) (tf : List (List Char))
    (whole : JsonVal) :
    ∀ fs : List (List Char × JsonVal),
      ExtractContent.extractEntries locale tf whole fs =
        fs.flatMap (fun kv =>
          (if ExtractContent.isLocalizedMarker kv.1 kv.2 then
            (ExtractContent.markerTextOpt whole locale).toList else []) ++
          ((match kv.2 with
            | .str s => if kv.1 ∈ tf then [ExtractContent.cleanText s] else []
            | _ => []) ++
          (if isObjLike kv.2 then
            ExtractContent.extractTextFieldsFromObject locale tf kv.2 else [])))
  | [] => rfl
  | (k, v) :: rest => by
    simp only [ExtractContent.extractEntries, List.flatMap_cons]
    rw [markerTexts_eq_markerTextOpt, extractEntries_eq_flatMap locale tf whole rest]
    simp [List.append_assoc]

/-- C6: for every object in the walked tree carrying the
`"@type" = "@builder.io/core:LocalizedValue"` marker, `extractBuilderContent`
extracts at most one text from the marker entry: `cleanText` of the value
stored under the requested locale key when that value is truthy, otherwise
`cleanText` of the value under `"Default"` when that value is truthy, and
nothing when neither is truthy.  The walk over an object's entries is exactly
the per-entry concatenation of the marker contribution (an `Option`, hence at
most one text), the text-field contribution, and the recursive
contribution. -/
theorem C6_localized_marker (fs : List (List Char × JsonVal)) (locale : List Char)
    (tf : List (List Char)) :
    (ExtractContent.extractTextFieldsFromObject locale tf (.obj fs) =
      fs.flatMap (fun kv =>
        (if ExtractContent.isLocalizedMarker kv.1 kv.2 then
          (ExtractContent.markerTextOpt (.obj fs) locale).toList else []) ++
        ((match kv.2 with
          | .str s => if kv.1 ∈ tf then [ExtractContent.cleanText s] else []
          | _ => []) ++
        (if isObjLike kv.2 then
          ExtractContent.extractTextFieldsFromObject locale tf kv.2 else [])))) ∧
    ∀ (whole : JsonVal) (loc : List Char),
      (ExtractContent.markerTextOpt whole loc).toList.length ≤ 1 := by
  constructor
  · exact extractEntries_eq_flatMap locale tf (.obj fs) fs
  · intro whole loc
    rcases ExtractContent.markerTextOpt whole loc with _ | x <;> simp

/-! ### Claim C10 -/

/-- Membership in the conditional singleton that `extractBuilderContent`
builds per result forces a non-empty content list. -/
theorem mem_page_ite_aux (t u : JsonVal) (texts : List (List Char))
    (p : ExtractContent.BuilderPage)
    (h : p ∈ (if texts.isEmpty = true then ([] : List ExtractContent.BuilderPage)
      else [⟨t, u, texts⟩])) : p.content.isEmpty = false := by
  by_cases he : texts.isEmpty = true
  · rw [if_pos he] at h
    simp at h
  · rw [if_neg he] at h
    rw [List.mem_singleton.mp h]
    simpa using he

/-- C10: with no `contentTransformer`, every page record returned by
`extractBuilderContent` has a non-empty `content` array — a result whose
blocks yield no extracted texts contributes no page. -/
theorem C10_no_empty_pages (builderResults : List JsonVal)
    (options : ExtractContent.ExtractOptions)
    (hopt : options.contentTransformer = none)
    (p : ExtractContent.BuilderPage)
    (hp : p ∈ ExtractContent.extractBuilderContent builderResults options) :
    p.content.isEmpty = false := by
  unfold ExtractContent.extractBuilderContent at hp
  rw [hopt] at hp
  rcases List.mem_flatMap.mp hp with ⟨result, _, hpr⟩
  exact mem_page_ite_aux _ _ _ p hpr

/-- C10 (witness): one result whose blocks yield one text. -/
theorem C10_witness :
    ((⟨.str ("Page-".data ++ "undefined".data), .str "#".data,
        [['h', 'i']]⟩ : ExtractContent.BuilderPage) ∈
      ExtractContent.extractBuilderContent
        [.obj [("data".data, .obj [("blocks".data,
          .obj [("text".data, .str ['h', 'i'])])])]]
        ⟨none, none, none⟩) ∧
    ((⟨.str ("Page-".data ++ "undefined".data), .str "#".data,
        [['h', 'i']]⟩ : ExtractContent.BuilderPage) : ExtractContent.BuilderPage).content.isEmpty = false := by
  have h : ExtractContent.extractBuilderContent
      [.obj [("data".data, .obj [("blocks".data,
        .obj [("text".data, .str ['h', 'i'])])])]]
      ⟨none, none, none⟩ =
      [⟨.str ("Page-".data ++ "undefined".data), .str "#".data, [['h', 'i']]⟩] := rfl
  have hm : (⟨.str ("Page-".data ++ "undefined".data), .str "#".data,
      [['h', 'i']]⟩ : ExtractContent.BuilderPage) ∈
      ExtractContent.extractBuilderContent
        [.obj [("data".data, .obj [("blocks".data,
          .obj [("text".data, .str ['h', 'i'])])])]]
        ⟨none, none, none⟩ := by
    rw [h]
    exact List.mem_singleton.mpr rfl
  exact ⟨hm, C10_no_empty_pages _ _ rfl _ hm⟩

/-! ### Claim C9 -/

theorem lastNotWs_tail (c : Char) (l : List Char)
    (h : lastNotWs (c :: l) = true) : lastNotWs l = true := by
  cases l with
  | nil => rfl
  | cons d rest => exact h

/-- `hay.indexOf(word, currentPosition)` finds the word exactly at its
canonical start when the word occurs there and the current position is either
the start itself or one character earlier, sitting on a whitespace character
(the word contains no whitespace, so it cannot match on the separator). -/
theorem jsIndexOf_exact (w ct : List Char) (c start : Nat)
    (hw : w ≠ [])
    (hnw : ∀ ch ∈ w, isJsWs ch = false)
    (hpre : w.isPrefixOf (ct.drop start) = true)
    (hcs : c = start ∨ (c + 1 = start ∧ ∃ d, ct[c]? = some d ∧ isJsWs d = true)) :
    Search.jsIndexOf w ct (c : Int) = (start : Int) := by
  have hcle : c ≤ start := by rcases hcs with h | ⟨h, -⟩ <;> omega
  have hlen : start < ct.length := by
    have hp := List.isPrefixOf_iff_prefix.mp hpre
    have h1 : w.length ≤ (ct.drop start).length := hp.length_le
    have h2 : 0 < w.length := List.length_pos.mpr hw
    rw [List.length_drop] at h1
    omega
  have hfind : (List.range (ct.length + 1)).find?
      (fun i => decide ((c : Int).toNat ≤ i) && w.isPrefixOf (ct.drop i)) = some start := by
    apply findRange_eq_some (by omega)
    · intro j hj
      rcases hcs with hce | ⟨hce, d, hd, hdw⟩
      · have hnle : ¬ c ≤ j := by omega
        simp [hnle]
      · rcases Nat.lt_or_ge j c with hjc | hjc
        · have hnle : ¬ c ≤ j := by omega
          simp [hnle]
        · have hjeq : j = c := by omega
          subst hjeq
          cases w with
          | nil => exact absurd rfl hw
          | cons a w2 =>
            have ha : isJsWs a = false := hnw a (List.mem_cons_self a w2)
            have hjlt : j < ct.length := by
              by_contra hge
              rw [List.getElem?_eq_none (by omega)] at hd
              exact Option.noConfusion hd
            have hgj : ct[j] = d := by
              have hge := List.getElem?_eq_getElem hjlt
              rw [hge] at hd
              exact Option.some.inj hd
            have hdropj : ct.drop j = d :: ct.drop (j + 1) := by
              have hdc := List.drop_eq_getElem_cons hjlt
              rw [hgj] at hdc
              exact hdc
            have habd : (a == d) = false := by
              apply beq_eq_false_iff_ne.mpr
              intro had
              rw [had, hdw] at ha
              exact Bool.noConfusion ha
            simp [hdropj, List.isPrefixOf, habd]
    · simp [Int.toNat_natCast, hcle, hpre]
  unfold Search.jsIndexOf
  rw [hfind]

/-- One step of the word traversal of `generateExcerpt`: under the conditions
of `jsIndexOf_exact`, the head word is flagged by `overlapB` at its canonical
start, and the traversal continues at the position just past the word. -/
theorem excerptFlags_word (pos mlen : Nat) (ct w : List Char) (wstart c : Nat)
    (ws : List (List Char))
    (hw : w ≠ []) (hnw : ∀ ch ∈ w, isJsWs ch = false)
    (hpre : w.isPrefixOf (ct.drop wstart) = true)
    (hcs : c = wstart ∨ (c + 1 = wstart ∧ ∃ d, ct[c]? = some d ∧ isJsWs d = true)) :
    Search.excerptFlags ct pos mlen (c : Int) (w :: ws) =
      (w, Search.overlapB wstart w.length pos mlen) ::
        Search.excerptFlags ct pos mlen ((wstart + w.length : Nat) : Int) ws := by
  show (w, decide (Search.jsIndexOf w ct (c : Int) ≤ (pos : Int) + (mlen : Int) - 1) &&
      decide (Search.jsIndexOf w ct (c : Int) + (w.length : Int) > (pos : Int))) ::
      Search.excerptFlags ct pos mlen (Search.jsIndexOf w ct (c : Int) + (w.length : Int)) ws =
    (w, Search.overlapB wstart w.length pos mlen) ::
      Search.excerptFlags ct pos mlen ((wstart + w.length : Nat) : Int) ws
  rw [jsIndexOf_exact w ct c wstart hw hnw hpre hcs]
  have hc2 : (wstart : Int) + (w.length : Int) = ((wstart + w.length : Nat) : Int) := by
    push_cast
    ring
  rw [hc2]
  rfl

/-- Traversal of the final field of `split(/\s+/)`. -/
theorem excerptFlags_splitField_nil (pos mlen : Nat) (ct cur : List Char) (wstart c : Nat)
    (hdrop : ct.drop wstart = cur.reverse)
    (hcur : ∀ ch ∈ cur, isJsWs ch = false)
    (hcz : cur ≠ [])
    (hc : c = wstart ∨ (c + 1 = wstart ∧ ∃ d, ct[c]? = some d ∧ isJsWs d = true)) :
    Search.excerptFlags ct pos mlen (c : Int) (Search.splitField cur []) =
      (Search.wordStarts wstart (Search.splitField cur [])).map
        (fun sw => (sw.2, Search.overlapB sw.1 sw.2.length pos mlen)) := by
  show Search.excerptFlags ct pos mlen (c : Int) [cur.reverse] =
    (Search.wordStarts wstart [cur.reverse]).map
      (fun sw => (sw.2, Search.overlapB sw.1 sw.2.length pos mlen))
  have hw : cur.reverse ≠ [] := by simpa using hcz
  have hnw : ∀ ch ∈ cur.reverse, isJsWs ch = false :=
    fun ch hch => hcur ch (List.mem_reverse.mp hch)
  have hpre : cur.reverse.isPrefixOf (ct.drop wstart) = true := by
    rw [hdrop]
    exact List.isPrefixOf_iff_prefix.mpr (List.prefix_refl _)
  rw [excerptFlags_word pos mlen ct cur.reverse wstart c [] hw hnw hpre hc]
  rfl

/-- The word traversal of `generateExcerpt` over the fields produced by
`splitField`, for a whitespace-normal text: each split word is located at its
canonical start, so the flags computed from `indexOf` positions coincide with
the flags computed from the canonical `wordStarts` positions. -/
theorem excerptFlags_splitField_eq (pos mlen : Nat) (ct : List Char) :
    ∀ (n : Nat) (rest cur : List Char) (wstart c : Nat),
      rest.length ≤ n →
      ct.drop wstart = cur.reverse ++ rest →
      (∀ ch ∈ cur, isJsWs ch = false) →
      noDoubleWs rest = true →
      lastNotWs rest = true →
      (cur = [] → rest ≠ [] ∧ headNotWs rest = true) →
      (c = wstart ∨ (c + 1 = wstart ∧ ∃ d, ct[c]? = some d ∧ isJsWs d = true)) →
      Search.excerptFlags ct pos mlen (c : Int) (Search.splitField cur rest) =
        (Search.wordStarts wstart (Search.splitField cur rest)).map
          (fun sw => (sw.2, Search.overlapB sw.1 sw.2.length pos mlen)) := by
  intro n
  induction n with
  | zero =>
    intro rest cur wstart c hlen hdrop hcur hnd hlast hcz hc
    have hrest : rest = [] := List.length_eq_zero.mp (Nat.le_zero.mp hlen)
    subst hrest
    have hcne : cur ≠ [] := fun hnil => (hcz hnil).1 rfl
    exact excerptFlags_splitField_nil pos mlen ct cur wstart c (by simpa using hdrop)
      hcur hcne hc
  | succ n ih =>
    intro rest cur wstart c hlen hdrop hcur hnd hlast hcz hc
    cases rest with
    | nil =>
      have hcne : cur ≠ [] := fun hnil => (hcz hnil).1 rfl
      exact excerptFlags_splitField_nil pos mlen ct cur wstart c (by simpa using hdrop)
        hcur hcne hc
    | cons ch rest2 =>
      by_cases hch : isJsWs ch = true
      · -- whitespace ends the current word
        have hcur_ne : cur ≠ [] := by
          intro hnil
          rcases hcz hnil with ⟨-, hhead⟩
          simp [headNotWs, hch] at hhead
        have hstep : Search.splitField cur (ch :: rest2) =
            cur.reverse :: Search.splitSep rest2 := by
          simp [Search.splitField, hch]
        rw [hstep]
        have hrest2 : rest2 ≠ [] := by
          intro hnil
          subst hnil
          simp [lastNotWs, hch] at hlast
        cases rest2 with
        | nil => exact absurd rfl hrest2
        | cons d rest3 =>
          have hd : isJsWs d = false := by
            have h2 := hnd
            simp only [noDoubleWs, Bool.and_eq_true, Bool.not_eq_true'] at h2
            obtain ⟨h21, -⟩ := h2
            rw [hch, Bool.true_and] at h21
            exact h21
          have hw : cur.reverse ≠ [] := by simpa using hcur_ne
          have hnw : ∀ c2 ∈ cur.reverse, isJsWs c2 = false :=
            fun c2 h2 => hcur c2 (List.mem_reverse.mp h2)
          have hpre : cur.reverse.isPrefixOf (ct.drop wstart) = true := by
            rw [hdrop]
            exact List.isPrefixOf_iff_prefix.mpr (List.prefix_append _ _)
          rw [excerptFlags_word pos mlen ct cur.reverse wstart c
            (Search.splitSep (d :: rest3)) hw hnw hpre hc]
          show _ = ((wstart, cur.reverse) ::
            Search.wordStarts (wstart + cur.reverse.length + 1)
              (Search.splitSep (d :: rest3))).map
            (fun sw => (sw.2, Search.overlapB sw.1 sw.2.length pos mlen))
          rw [List.map_cons]
          congr 1
          have hsep : Search.splitSep (d :: rest3) = Search.splitField [d] rest3 := by
            simp [Search.splitSep, hd]
          rw [hsep]
          apply ih rest3 [d] (wstart + cur.reverse.length + 1) (wstart + cur.reverse.length)
          · simp only [List.length_cons] at hlen
            omega
          · have h1 : ct.drop (wstart + cur.reverse.length + 1) = d :: rest3 := by
              calc ct.drop (wstart + cur.reverse.length + 1)
                  = (ct.drop wstart).drop (cur.reverse.length + 1) := by
                    rw [List.drop_drop]
                    exact congrArg (fun k => List.drop k ct) (by omega)
                _ = (cur.reverse ++ ch :: d :: rest3).drop (cur.reverse.length + 1) := by
                    rw [hdrop]
                _ = d :: rest3 := by
                    have h2 : cur.reverse ++ ch :: d :: rest3 =
                        (cur.reverse ++ [ch]) ++ (d :: rest3) := by simp
                    rw [h2]
                    exact List.drop_left' (by simp)
            simpa using h1
          · intro c2 h2
            rw [List.mem_singleton.mp h2]
            exact hd
          · exact noDoubleWs_tail _ _ (noDoubleWs_tail _ _ hnd)
          · exact lastNotWs_tail _ _ (lastNotWs_tail _ _ hlast)
          · intro habs
            exact absurd habs (by simp)
          · right
            refine ⟨rfl, ch, ?_, hch⟩
            have h3 : ct[wstart + cur.reverse.length]? =
                (ct.drop wstart)[cur.reverse.length]? :=
              (List.getElem?_drop ct wstart cur.reverse.length).symm
            rw [h3, hdrop, List.getElem?_append_right (le_refl _)]
            simp
      · -- non-whitespace: extend the current word
        have hstep : Search.splitField cur (ch :: rest2) =
            Search.splitField (ch :: cur) rest2 := by
          simp [Search.splitField, hch]
        rw [hstep]
        apply ih rest2 (ch :: cur) wstart c
        · simp only [List.length_cons] at hlen
          omega
        · rw [hdrop]
          simp
        · intro c2 h2
          rcases List.mem_cons.mp h2 with h3 | h3
          · rw [h3]
            simpa using hch
          · exact hcur c2 h3
        · exact noDoubleWs_tail _ _ hnd
        · exact lastNotWs_tail _ _ hlast
        · intro habs
          exact absurd habs (by simp)
        · exact hc

/-- For a whitespace-normal non-empty cleaned text, the `indexOf`-based word
traversal of `generateExcerpt` flags exactly the words whose canonical span
overlaps the match. -/
theorem excerptFlags_eq_wordStarts (pos mlen : Nat) (ct : List Char)
    (h : wsNormal ct = true) (hne : ct ≠ []) :
    Search.excerptFlags ct pos mlen 0 (Search.jsSplitWs ct) =
      (Search.wordStarts 0 (Search.jsSplitWs ct)).map
        (fun sw => (sw.2, Search.overlapB sw.1 sw.2.length pos mlen)) := by
  have h3 := h
  unfold wsNormal at h3
  simp only [Bool.and_eq_true] at h3
  obtain ⟨⟨hnd, hhead⟩, hlast⟩ := h3
  have h0 : Search.excerptFlags ct pos mlen (((0 : Nat) : Int)) (Search.splitField [] ct) =
      (Search.wordStarts 0 (Search.splitField [] ct)).map
        (fun sw => (sw.2, Search.overlapB sw.1 sw.2.length pos mlen)) := by
    apply excerptFlags_splitField_eq pos mlen ct ct.length ct [] 0 0 le_rfl
    · simp
    · intro c2 h2
      simp at h2
    · exact hnd
    · exact hlast
    · intro h2
      exact ⟨hne, hhead⟩
    · left
      rfl
  exact h0

theorem wordStarts_map_snd : ∀ (acc : Nat) (ws : List (List Char)),
    (Search.wordStarts acc ws).map Prod.snd = ws
  | _, [] => rfl
  | acc, w :: ws => by
    simp only [Search.wordStarts, List.map_cons]
    rw [wordStarts_map_snd]

theorem wordStarts_length : ∀ (acc : Nat) (ws : List (List Char)),
    (Search.wordStarts acc ws).length = ws.length
  | _, [] => rfl
  | acc, w :: ws => by
    simp only [Search.wordStarts, List.length_cons]
    rw [wordStarts_length]

theorem findIdx_some_lt {α : Type} (p : α → Bool) :
    ∀ (l : List α) (i m : Nat), List.findIdx? p l i = some m → i ≤ m ∧ m - i < l.length := by
  intro l
  induction l with
  | nil =>
    intro i m h
    rw [List.findIdx?_nil] at h
    exact Option.noConfusion h
  | cons a l ihl =>
    intro i m h
    rw [List.findIdx?_cons] at h
    by_cases hp : p a = true
    · rw [if_pos hp] at h
      have hm : i = m := Option.some.inj h
      subst hm
      exact ⟨le_rfl, by simp⟩
    · rw [if_neg hp] at h
      obtain ⟨h1, h2⟩ := ihl (i + 1) m h
      constructor
      · omega
      · simp only [List.length_cons]
        omega

/-- Decomposition of the split-word list around the matched word index: at
most `n` words before it, at most `n` after, with the omitted-words tests. -/
theorem slice_decomp {α : Type} (ws : List α) (m n : Nat) (hm : m < ws.length) :
    ∃ (pre mid post : List α) (k : Nat),
      ws = (pre ++ mid) ++ post ∧
      pre.length + k = m ∧
      k < mid.length ∧ k ≤ n ∧ mid.length - (k + 1) ≤ n ∧
      mid = (ws.take (min ws.length (m + n + 1))).drop (m - n) ∧
      (pre.isEmpty = true ↔ ¬ 0 < m - n) ∧
      (post.isEmpty = true ↔ ¬ min ws.length (m + n + 1) < ws.length) := by
  have hsL : m - n ≤ ws.length := by omega
  have heL : min ws.length (m + n + 1) ≤ ws.length := min_le_left _ _
  have hme : m < min ws.length (m + n + 1) := lt_min (by omega) (by omega)
  have hpre_len : (ws.take (m - n)).length = m - n := by
    rw [List.length_take]
    exact min_eq_left hsL
  have hmid_len : ((ws.take (min ws.length (m + n + 1))).drop (m - n)).length =
      min ws.length (m + n + 1) - (m - n) := by
    rw [List.length_drop, List.length_take, min_eq_left heL]
  refine ⟨ws.take (m - n), (ws.take (min ws.length (m + n + 1))).drop (m - n),
    ws.drop (min ws.length (m + n + 1)), m - (m - n), ?_, ?_, ?_, ?_, ?_, rfl, ?_, ?_⟩
  · rw [List.append_assoc, List.drop_take]
    have h1 : ws.drop (min ws.length (m + n + 1)) =
        (ws.drop (m - n)).drop (min ws.length (m + n + 1) - (m - n)) := by
      rw [List.drop_drop]
      congr 1
      omega
    rw [h1, List.take_append_drop, List.take_append_drop]
  · rw [hpre_len]
    omega
  · rw [hmid_len]
    omega
  · omega
  · rw [hmid_len]
    omega
  · rw [List.isEmpty_iff, List.take_eq_nil_iff]
    constructor
    · intro h1
      rcases h1 with h1 | h1
      · omega
      · subst h1
        simp at hm
    · intro h1
      left
      omega
  · rw [List.isEmpty_iff, List.drop_eq_nil_iff]
    omega

/-- `generateExcerpt` agrees with the claim-side `excerptSpec` whenever the
latter finds a matched word (the cleaned text is whitespace-normal, so the
`indexOf` traversal locates every split word at its canonical start). -/
theorem generateExcerpt_eq_spec (text : List Char) (pos mlen n : Nat) (ex : List Char)
    (h : Search.excerptSpec (TextCleaner.cleanText text) pos mlen n = some ex) :
    Search.generateExcerpt text pos mlen n = ex := by
  by_cases hct : TextCleaner.cleanText text = []
  · rw [hct] at h
    have hP : ¬ (((0 : Nat) : Int) + ((0 : Nat) : Int) > ((pos : Nat) : Int)) := by
      push_cast
      omega
    have hov : Search.overlapB 0 0 pos mlen = false := by
      unfold Search.overlapB
      rw [decide_eq_false hP, Bool.and_false]
    have hnone : Search.excerptSpec [] pos mlen n = none := by
      simp only [Search.excerptSpec]
      have hws : Search.wordStarts 0 (Search.jsSplitWs []) = [(0, ([] : List Char))] := rfl
      rw [hws, List.findIdx?_cons]
      simp [hov, List.findIdx?_nil]
    rw [hnone] at h
    exact Option.noConfusion h
  · have hwsn := TextCleaner.cleanText_wsNormal text
    have hflags := excerptFlags_eq_wordStarts pos mlen (TextCleaner.cleanText text) hwsn hct
    simp only [Search.generateExcerpt]
    rw [hflags, List.findIdx?_map]
    have hcomp : ((fun wf : List Char × Bool => wf.2) ∘
        (fun sw : Nat × List Char => (sw.2, Search.overlapB sw.1 sw.2.length pos mlen))) =
        (fun sw : Nat × List Char => Search.overlapB sw.1 sw.2.length pos mlen) := rfl
    rw [hcomp]
    simp only [Search.excerptSpec] at h
    rcases hidx : (Search.wordStarts 0
        (Search.jsSplitWs (TextCleaner.cleanText text))).findIdx?
        (fun sw => Search.overlapB sw.1 sw.2.length pos mlen) with _ | m
    · rw [hidx] at h
      exact Option.noConfusion h
    · rw [hidx] at h
      rw [hidx]
      injection h with h
      subst h
      have hlen2 : ((Search.wordStarts 0
          (Search.jsSplitWs (TextCleaner.cleanText text))).map
          (fun sw => (sw.2, Search.overlapB sw.1 sw.2.length pos mlen))).length =
          (Search.jsSplitWs (TextCleaner.cleanText text)).length := by
        rw [List.length_map, wordStarts_length]
      have hmap1 : (((Search.wordStarts 0
          (Search.jsSplitWs (TextCleaner.cleanText text))).map
          (fun sw => (sw.2, Search.overlapB sw.1 sw.2.length pos mlen))).map
          (fun wf => wf.1)) = Search.jsSplitWs (TextCleaner.cleanText text) := by
        rw [List.map_map]
        have h2 : ((fun wf : List Char × Bool => wf.1) ∘
            (fun sw : Nat × List Char =>
              (sw.2, Search.overlapB sw.1 sw.2.length pos mlen))) =
            (Prod.snd : Nat × List Char → List Char) := rfl
        rw [h2, wordStarts_map_snd]
      dsimp only
      rw [hlen2, hmap1]

/-- C7: excerpt generation bounds context.  Whenever the claim-side
`excerptSpec` finds a word of the split cleaned text overlapping the match,
`generateExcerpt` returns exactly its excerpt, and the split words decompose
as `pre ++ mid ++ post` with the matched word inside `mid`, at most
`contextWords` words of `mid` before it and at most `contextWords` after it,
joined by single spaces, with the `'... '` prefix exactly when `pre` is
non-empty and the `' ...'` suffix exactly when `post` is non-empty. -/
theorem C7_excerpt_context (text : List Char) (pos mlen n : Nat) (ex : List Char)
    (h : Search.excerptSpec (TextCleaner.cleanText text) pos mlen n = some ex) :
    Search.generateExcerpt text pos mlen n = ex ∧
    ∃ (pre mid post : List (List Char)) (k : Nat),
      Search.jsSplitWs (TextCleaner.cleanText text) = (pre ++ mid) ++ post ∧
      (Search.wordStarts 0 (Search.jsSplitWs (TextCleaner.cleanText text))).findIdx?
        (fun sw => Search.overlapB sw.1 sw.2.length pos mlen) = some (pre.length + k) ∧
      k < mid.length ∧ k ≤ n ∧ mid.length - (k + 1) ≤ n ∧
      ex = (if pre.isEmpty then [] else "... ".data) ++
        List.intercalate [' '] mid ++
        (if post.isEmpty then [] else " ...".data) := by
  refine ⟨generateExcerpt_eq_spec text pos mlen n ex h, ?_⟩
  simp only [Search.excerptSpec] at h
  rcases hidx : (Search.wordStarts 0
      (Search.jsSplitWs (TextCleaner.cleanText text))).findIdx?
      (fun sw => Search.overlapB sw.1 sw.2.length pos mlen) with _ | m
  · rw [hidx] at h
    exact Option.noConfusion h
  · rw [hidx] at h
    injection h with h
    have hmlt : m < (Search.jsSplitWs (TextCleaner.cleanText text)).length := by
      have h2 := findIdx_some_lt _ _ 0 m hidx
      rw [wordStarts_length] at h2
      omega
    obtain ⟨pre, mid, post, k, hsplit, hprek, hkmid, hkn, hmidk, hmid, hpreE, hpostE⟩ :=
      slice_decomp (Search.jsSplitWs (TextCleaner.cleanText text)) m n hmlt
    refine ⟨pre, mid, post, k, hsplit, ?_, hkmid, hkn, hmidk, ?_⟩
    · rw [hprek]
      exact hidx
    · rw [← h]
      have h1 : (if pre.isEmpty then ([] : List Char) else "... ".data) =
          (if 0 < m - n then "... ".data else []) := by
        by_cases h0 : 0 < m - n
        · rw [if_neg (fun habs => (hpreE.mp habs) h0), if_pos h0]
        · rw [if_pos (hpreE.mpr h0), if_neg h0]
      have h2 : (if post.isEmpty then ([] : List Char) else " ...".data) =
          (if min (Search.jsSplitWs (TextCleaner.cleanText text)).length (m + n + 1) <
              (Search.jsSplitWs (TextCleaner.cleanText text)).length
            then " ...".data else []) := by
        by_cases hE : min (Search.jsSplitWs (TextCleaner.cleanText text)).length (m + n + 1) <
            (Search.jsSplitWs (TextCleaner.cleanText text)).length
        · rw [if_neg (fun habs => (hpostE.mp habs) hE), if_pos hE]
        · rw [if_pos (hpostE.mpr hE), if_neg hE]
      rw [h1, h2, hmid]

/-- C7 (witness): the excerpt of the match of "world" at index 6 of
"hello world" with one context word. -/
theorem C7_witness :
    Search.excerptSpec (TextCleaner.cleanText "hello world".data) 6 5 1 =
      some "hello world".data ∧
    Search.generateExcerpt "hello world".data 6 5 1 = "hello world".data :=
  ⟨rfl, (C7_excerpt_context "hello world".data 6 5 1 "hello world".data rfl).1⟩

end BuilderUtils
